import Mathlib

/-!
Verification of the production-scheduler core (`src/core/scheduler.ts`,
`src/util/timeUtils.ts`) against its natural-language specification.

Modelling conventions, mirroring the source:

* All times are integer minute offsets from the horizon start (the source
  normalizes ISO timestamps to such offsets via `parseIsoOffset`, a pure
  external helper excluded from the core, spec section 1).  The engine input
  is therefore modelled post time-conversion: `horizonEnd` is the horizon
  length in minutes, calendars, due dates and durations are minutes.
* The source field `end` is called `stop` here (`end` is a Lean keyword).
* JavaScript `Map`s are modelled as association lists in insertion order;
  `Map.set` replaces the value of an existing key in place and appends new
  keys (`assocSet`).  `Record` lookups with `?? 0` become `lookupD`.
* `Array.prototype.sort` (stable, comparator `a.start - b.start`) is
  modelled by the stable insertion sort `sortByStart`.
* The wall-clock deadline test `Date.now() > deadline` is modelled by an
  oracle `deadlineHit : Nat -> Bool` indexed by the iteration counter.
* The human-readable `why` strings are modelled as structured values
  (`WhyLine`), one constructor per template literal in the source, carrying
  exactly the data interpolated by the template.
-/

/-- Half-open interval `[start, stop)` in minutes (`NormalizedInterval`). -/
structure NormalizedInterval where
  start : Int
  stop : Int
deriving Repr, DecidableEq

/-- A resource as the engine receives it (`Resource`), calendar already
converted to minute offsets (`parseCalendarWindows` does the ISO parsing). -/
structure RawResource where
  id : String
  capabilities : List String
  calendar : List NormalizedInterval
deriving Repr, DecidableEq

/-- One route entry (`Operation` in `types/index.ts`). -/
structure RouteOp where
  capability : String
  duration_minutes : Int
deriving Repr, DecidableEq

/-- A product with due date already converted to a minute offset
(`NormalizedProduct`). -/
structure NormProduct where
  id : String
  family : String
  due : Int
  route : List RouteOp
deriving Repr, DecidableEq

/-- The engine input after timestamp conversion: `horizonEnd` is
`parseIsoOffset(input.horizon.end, input.horizon.start)`. -/
structure EngineInput where
  horizonEnd : Int
  resources : List RawResource
  products : List NormProduct
  changeoverMatrix : List (String × Int)
deriving Repr, DecidableEq

/-- `NormalizedResource`: capabilities (a JS `Set`, membership only) and the
merged, clipped calendar. -/
structure NormResource where
  id : String
  capabilities : List String
  calendar : List NormalizedInterval
deriving Repr, DecidableEq

/-- `SchedulableOperation`. -/
structure SchedulableOperation where
  productId : String
  productFamily : String
  stepIndex : Nat
  capability : String
  duration : Int
  productDue : Int
  earliestStart : Int
deriving Repr, DecidableEq

/-- `InternalAssignment` (`end` renamed `stop`). -/
structure InternalAssignment where
  productId : String
  productFamily : String
  stepIndex : Nat
  operationName : String
  resource : String
  start : Int
  stop : Int
deriving Repr, DecidableEq

/-- `ResourceState`. -/
structure ResourceState where
  lastFamily : Option String
  assignments : List InternalAssignment
deriving Repr, DecidableEq

/-- Output assignment, with start/end kept as minute offsets
(`formatIsoOffset` is the external timestamp converter). -/
structure OutAssignment where
  product : String
  operation : String
  resource : String
  start : Int
  stop : Int
deriving Repr, DecidableEq

/-- `KPIs`. -/
structure KPIs where
  tardiness_minutes : Int
  changeovers : Nat
  makespan_minutes : Int
  utilization : List (String × Int)
  on_time_jobs : Nat
  total_jobs : Nat
deriving Repr, DecidableEq

/-- One line of a failure's `why` array, one constructor per template
literal in `scheduler.ts`, carrying the interpolated data. -/
inductive WhyLine where
  /-- "Product {p}, step {s} ({cap}): No resource has required capability" -/
  | opNoCapability (productId : String) (stepIndex : Nat) (capability : String)
  /-- "Product {p}, step {s} ({cap}): No available time slot found on eligible resources" -/
  | opNoSlot (productId : String) (stepIndex : Nat) (capability : String)
  /-- "Closest: {r} - largest gap {g}min < needed {n}min (changeover {c}min)" -/
  | closest (resource : String) (gap needed changeoverTime : Int)
  /-- "Product {p}, step {s} ({cap}): would end at {e} min, beyond horizon {h} min" -/
  | opHorizon (productId : String) (stepIndex : Nat) (capability : String)
      (stopAt horizonEnd : Int)
  /-- "Precedence deadlock detected" -/
  | deadlockText
  /-- "Maximum iterations exceeded" -/
  | maxIterationsText
  /-- "settings.time_limit_seconds reached before completing schedule" -/
  | timeLimitText
  /-- "Resource {r}: overlap between assignments at {s1}-{e1} and {s2}-{e2}" -/
  | overlapDetail (resource : String) (s1 e1 s2 e2 : Int)
deriving Repr, DecidableEq

/-- `ScheduleResult` (`SuccessOutput` / `FailureOutput`). -/
inductive ScheduleResult where
  | success (version : String) (assignments : List OutAssignment) (kpis : KPIs)
  | failure (version : String) (error : String) (why : List WhyLine)
deriving Repr, DecidableEq

/-- `SCHEDULER_VERSION` from `src/constants.ts` (file not in the snapshot;
the tests and `api/routes.ts` pin it to "1.0.0"). -/
def SCHEDULER_VERSION : String := "1.0.0"

/-! ### Association-list helpers (JS `Map` / `Record` semantics) -/

/-- `m.get(k) ?? d` / `m[k] ?? d`. -/
def lookupD {β : Type} (l : List (String × β)) (k : String) (d : β) : β :=
  match l.find? (fun e => e.1 == k) with
  | some e => e.2
  | none => d

/-- Replace the first element satisfying `p` by `f` of it (models in-place
mutation of the found object). -/
def updateFirstBy {α : Type} (p : α → Bool) (f : α → α) : List α → List α
  | [] => []
  | a :: t => if p a then f a :: t else a :: updateFirstBy p f t

/-- `Map.set k v`: replace in place if the key exists, else append. -/
def assocSet {β : Type} (l : List (String × β)) (k : String) (v : β) :
    List (String × β) :=
  if l.any (fun e => e.1 == k) then
    updateFirstBy (fun e => e.1 == k) (fun e => (e.1, v)) l
  else l ++ [(k, v)]

/-- Update the value stored under an existing key in place. -/
def assocUpdate {β : Type} (l : List (String × β)) (k : String) (f : β → β) :
    List (String × β) :=
  updateFirstBy (fun e => e.1 == k) (fun e => (e.1, f e.2)) l

/-- `unscheduled.splice(unscheduled.findIndex(p), 1)`: remove the first
match; with no match `findIndex` yields `-1` and `splice(-1, 1)` removes the
last element. -/
def spliceOutFirst {α : Type} (p : α → Bool) (l : List α) : List α :=
  match l.findIdx? p with
  | some i => l.eraseIdx i
  | none => l.dropLast

/-! ### Stable sort by `start` (models `sort((a, b) => a.start - b.start)`) -/

/-- Insert before the first element with a strictly larger key (stable:
an element inserted later stays after equal keys). -/
def insertByKey {α : Type} (key : α → Int) (x : α) : List α → List α
  | [] => [x]
  | y :: t => if key x ≤ key y then x :: y :: t else y :: insertByKey key x t

/-- Stable insertion sort by an integer key. -/
def sortByKey {α : Type} (key : α → Int) (l : List α) : List α :=
  l.foldr (insertByKey key) []

/-! ### `src/util/timeUtils.ts` -/

/-- `doIntervalsOverlap` (half-open; touching intervals do not overlap). -/
def doIntervalsOverlap (a b : NormalizedInterval) : Prop :=
  a.start < b.stop ∧ b.start < a.stop

instance : DecidablePred (fun p : NormalizedInterval × NormalizedInterval => doIntervalsOverlap p.1 p.2) :=
  fun _ => instDecidableAnd

/-- One step of the merge fold in `combineOverlappingIntervals`.  The source
mutates the last element of the `combined` array; here the accumulator is
kept reversed (head = last pushed interval). -/
def mergeStepRev (acc : List NormalizedInterval) (current : NormalizedInterval) : List NormalizedInterval :=
  match acc with
  | [] => [current]
  | last :: rest =>
    if current.start ≤ last.stop then
      { start := last.start, stop := max last.stop current.stop } :: rest
    else
      current :: last :: rest

/-- `combineOverlappingIntervals`: sort by start, fold overlapping or
adjacent (`current.start <= last.end`) intervals into one. -/
def combineOverlappingIntervals (intervals : List NormalizedInterval) : List NormalizedInterval :=
  match sortByKey NormalizedInterval.start intervals with
  | [] => []
  | first :: rest => (rest.foldl mergeStepRev [first]).reverse

/-- `isWithinCalendarWindow`. -/
def isWithinCalendarWindow (start stop : Int) (calendar : List NormalizedInterval) : Prop :=
  ∃ w ∈ calendar, w.start ≤ start ∧ stop ≤ w.stop

instance (start stop : Int) (calendar : List NormalizedInterval) :
    Decidable (isWithinCalendarWindow start stop calendar) :=
  List.decidableBEx _ calendar

/-! ### `normalizeInput` -/

/-- Clip a merged window to `[0, horizonEnd]` (lines 26-29 of the source). -/
def clipWindow (horizonEnd : Int) (w : NormalizedInterval) : NormalizedInterval :=
  { start := max 0 w.start, stop := min horizonEnd w.stop }

/-- Normalize one resource: `parseCalendarWindows` sorts the raw windows,
then they are merged, clipped and empty windows dropped. -/
def normalizeResource (horizonEnd : Int) (r : RawResource) : NormResource :=
  let raw := sortByKey NormalizedInterval.start r.calendar
  let merged :=
    ((combineOverlappingIntervals raw).map (clipWindow horizonEnd)).filter
      (fun w => decide (w.start < w.stop))
  { id := r.id, capabilities := r.capabilities, calendar := merged }

/-- Normalized input (`normalizeInput`'s return value). -/
structure Normalized where
  horizonEnd : Int
  resources : List (String × NormResource)
  products : List NormProduct
  changeoverMatrix : List (String × Int)
deriving Repr, DecidableEq

/-- `normalizeInput`. -/
def normalizeInput (inp : EngineInput) : Normalized :=
  { horizonEnd := inp.horizonEnd
  , resources :=
      inp.resources.foldl
        (fun m r => assocSet m r.id (normalizeResource inp.horizonEnd r)) []
  , products := inp.products
  , changeoverMatrix := inp.changeoverMatrix }

/-! ### `buildOperationsList` -/

/-- Flatten one product's route into schedulable operations. -/
def productOperations (p : NormProduct) : List SchedulableOperation :=
  (List.range p.route.length).map (fun stepIndex =>
    { productId := p.id
    , productFamily := p.family
    , stepIndex := stepIndex
    , capability := ((p.route.get? stepIndex).getD ⟨"", 0⟩).capability
    , duration := ((p.route.get? stepIndex).getD ⟨"", 0⟩).duration_minutes
    , productDue := p.due
    , earliestStart := 0 })

/-- `buildOperationsList`. -/
def buildOperationsList (products : List NormProduct) : List SchedulableOperation :=
  products.flatMap productOperations

/-! ### `selectNextOperation` -/

/-- Fallback for the non-null assertion `productsMap.get(id)!`. -/
def defaultProduct : NormProduct := { id := "", family := "", due := 0, route := [] }

/-- Readiness test: step 0, or the product already has an assignment for the
previous step (`a.stepIndex === op.stepIndex - 1`; written `+ 1` on the left
so that step 0 matches JS, where `0 - 1 = -1` matches nothing). -/
def isReady (assignmentsMap : List (String × List InternalAssignment))
    (op : SchedulableOperation) : Bool :=
  op.stepIndex == 0 ||
    (lookupD assignmentsMap op.productId []).any
      (fun a => a.stepIndex + 1 == op.stepIndex)

/-- Sum of `duration_minutes` of this and all later steps
(`route.slice(stepIndex).reduce(...)`). -/
def remainingWork (route : List RouteOp) (stepIndex : Nat) : Int :=
  ((route.drop stepIndex).map RouteOp.duration_minutes).sum

/-- The comparator passed to `ready.sort` (its returned number). -/
def opCompare (productsMap : List (String × NormProduct))
    (a b : SchedulableOperation) : Int :=
  if a.productDue ≠ b.productDue then a.productDue - b.productDue
  else
    let productA := lookupD productsMap a.productId defaultProduct
    let productB := lookupD productsMap b.productId defaultProduct
    let remainingA := remainingWork productA.route a.stepIndex
    let remainingB := remainingWork productB.route b.stepIndex
    let slackA := a.productDue - a.earliestStart - remainingA
    let slackB := b.productDue - b.earliestStart - remainingB
    if slackA ≠ slackB then slackA - slackB else a.duration - b.duration

/-- `selectNextOperation`: filter the ready subset, stably sort it by the
comparator and return its head.  The stable sort followed by `[0]` equals
the left fold keeping the first strict minimum. -/
def selectNextOperation (unscheduled : List SchedulableOperation)
    (assignmentsMap : List (String × List InternalAssignment))
    (productsMap : List (String × NormProduct)) : Option SchedulableOperation :=
  let ready := unscheduled.filter (isReady assignmentsMap)
  match ready with
  | [] => none
  | h :: t =>
    some (t.foldl (fun best op => if opCompare productsMap op best < 0 then op else best) h)

/-! ### `getEligibleResources`, `getChangeoverTime` -/

/-- `getEligibleResources`: resources (in map insertion order) whose
capability set contains the required capability. -/
def getEligibleResources (operation : SchedulableOperation)
    (resources : List (String × NormResource)) : List NormResource :=
  (resources.map Prod.snd).filter
    (fun r => r.capabilities.contains operation.capability)

/-- `getChangeoverTime`: 0 when there is no (or a falsy, i.e. empty-string)
previous family, otherwise `matrix["A->B"] ?? 0`. -/
def getChangeoverTime (lastFamily : Option String) (nextFamily : String)
    (matrix : List (String × Int)) : Int :=
  match lastFamily with
  | none => 0
  | some f => if f = "" then 0 else lookupD matrix (f ++ "->" ++ nextFamily) 0

/-! ### `tryPlaceOperation` -/

/-- A placement candidate (`{resource, start, end}`). -/
structure Candidate where
  resource : String
  start : Int
  stop : Int
deriving Repr, DecidableEq

/-- The data of the near-miss diagnostic (`bestNear.reason` template). -/
structure NearMiss where
  resource : String
  gap : Int
  needed : Int
  changeoverTime : Int
deriving Repr, DecidableEq

/-- Outcome of examining one gap `i` of one window of one resource. -/
inductive GapOutcome where
  | cand (c : Candidate)
  | miss (resource : String) (gap needed changeoverTime : Int)
  | skip
deriving Repr, DecidableEq

/-- The body of the innermost loop of `tryPlaceOperation` (lines 165-212):
examine gap `i` between `sorted[i-1]` and `sorted[i]` inside window `w`. -/
def evalGap (operation : SchedulableOperation) (rid : String) (w : NormalizedInterval)
    (sorted : List InternalAssignment) (matrix : List (String × Int))
    (i : Nat) : GapOutcome :=
  let prevAssignment : Option InternalAssignment :=
    if i = 0 then none else sorted.get? (i - 1)
  let nextAssignment := sorted.get? i
  let gapStart := max operation.earliestStart
    (match prevAssignment with
     | some p => p.stop
     | none => w.start)
  let gapEnd := min w.stop
    (match nextAssignment with
     | some n => n.start
     | none => w.stop)
  if gapEnd ≤ gapStart then .skip
  else
    let prevFamily := prevAssignment.map InternalAssignment.productFamily
    let changeoverTime := getChangeoverTime prevFamily operation.productFamily matrix
    let start := gapStart + changeoverTime
    let stop := start + operation.duration
    if gapStart ≤ start ∧ stop ≤ gapEnd then
      .cand { resource := rid, start := start, stop := stop }
    else
      .miss rid (gapEnd - gapStart) (changeoverTime + operation.duration) changeoverTime

/-- All gap outcomes in the iteration order of the triple loop of
`tryPlaceOperation`: eligible resources, calendar windows not ending at or
before `earliestStart`, gap indices `0..sorted.length`. -/
def gapOutcomes (operation : SchedulableOperation)
    (eligibleResources : List NormResource)
    (resourceStates : List (String × ResourceState))
    (matrix : List (String × Int)) : List GapOutcome :=
  eligibleResources.flatMap (fun resource =>
    let state := lookupD resourceStates resource.id { lastFamily := none, assignments := [] }
    let sorted := state.assignments
    (resource.calendar.filter
        (fun w => !decide (w.stop ≤ operation.earliestStart))).flatMap
      (fun w => (List.range (sorted.length + 1)).map
        (evalGap operation resource.id w sorted matrix)))

/-- Running best-so-far state of `tryPlaceOperation` (`Infinity` modelled
as `none`). -/
structure PlaceState where
  bestPlacement : Option Candidate
  bestProjectedTardiness : Option Int
  earliestStop : Option Int
  bestNear : Option NearMiss
  largestGap : Int
deriving Repr, DecidableEq

/-- Fold step of the best-candidate / largest-near-miss tracking. -/
def placeStep (due : Int) (s : PlaceState) (o : GapOutcome) : PlaceState :=
  match o with
  | .skip => s
  | .cand c =>
    let projectedTardiness := max 0 (c.stop - due)
    let better :=
      match s.bestProjectedTardiness, s.earliestStop with
      | none, _ => true
      | some bt, none => decide (projectedTardiness < bt)
      | some bt, some es =>
        decide (projectedTardiness < bt) ||
          (decide (projectedTardiness = bt) && decide (c.stop < es))
    if better then
      { s with bestPlacement := some c
             , bestProjectedTardiness := some projectedTardiness
             , earliestStop := some c.stop }
    else s
  | .miss rid gap needed co =>
    if s.largestGap < gap then
      { s with bestNear := some ⟨rid, gap, needed, co⟩, largestGap := gap }
    else s

/-- `tryPlaceOperation`. -/
def tryPlaceOperation (operation : SchedulableOperation)
    (eligibleResources : List NormResource)
    (resourceStates : List (String × ResourceState))
    (changeoverMatrix : List (String × Int)) :
    Option Candidate × Option NearMiss :=
  let outcomes := gapOutcomes operation eligibleResources resourceStates changeoverMatrix
  let s := outcomes.foldl (placeStep operation.productDue)
    { bestPlacement := none, bestProjectedTardiness := none
    , earliestStop := none, bestNear := none, largestGap := 0 }
  (s.bestPlacement, s.bestNear)

/-! ### `updateResourceState`, `denormalizeResult` -/

/-- `updateResourceState`: push, re-sort by start, record last family. -/
def updateResourceState (state : ResourceState) (assignment : InternalAssignment) :
    ResourceState :=
  { lastFamily := some assignment.productFamily
  , assignments := sortByKey InternalAssignment.start (state.assignments ++ [assignment]) }

/-- `computeChangeoverMinutesPerResource` for one resource's list. -/
def changeoverMinutesOf (list : List InternalAssignment)
    (matrix : List (String × Int)) : Int :=
  let sorted := sortByKey InternalAssignment.start list
  (sorted.zip sorted.tail).foldl
    (fun total p =>
      if p.1.productFamily ≠ p.2.productFamily then
        total + lookupD matrix (p.1.productFamily ++ "->" ++ p.2.productFamily) 0
      else total) 0

/-- Count of adjacent family changes on one resource's sorted list. -/
def changeoverCountOf (list : List InternalAssignment) : Nat :=
  let sorted := sortByKey InternalAssignment.start list
  (sorted.zip sorted.tail).countP
    (fun p => p.1.productFamily != p.2.productFamily)

/-- Group assignments by resource in first-appearance order (the
`resourceMap` construction of `denormalizeResult`). -/
def groupByResource (assignments : List InternalAssignment) :
    List (String × List InternalAssignment) :=
  assignments.foldl (fun m a => assocSet m a.resource (lookupD m a.resource [] ++ [a])) []

/-- `Math.round(num / den)` for `den > 0`, on exact rationals (the source
computes this in floating point; no claim depends on the value). -/
def jsRound (num den : Int) : Int :=
  (2 * num + den) / (2 * den)

/-- `denormalizeResult` (timestamps kept as minute offsets). -/
def denormalizeResult (assignments : List InternalAssignment)
    (products : List NormProduct) (resources : List (String × NormResource))
    (changeoverMatrix : List (String × Int)) : ScheduleResult :=
  let sortedAssignments := sortByKey InternalAssignment.start assignments
  let outputAssignments := sortedAssignments.map (fun a =>
    { product := a.productId, operation := a.operationName
    , resource := a.resource, start := a.start, stop := a.stop : OutAssignment })
  let productCompletions :=
    assignments.foldl
      (fun m a => assocSet m a.productId (max (lookupD m a.productId 0) a.stop)) []
  let totalTardiness :=
    (products.map (fun p => max 0 (lookupD productCompletions p.id 0 - p.due))).sum
  let onTimeJobs :=
    products.countP (fun p => decide (max 0 (lookupD productCompletions p.id 0 - p.due) = 0))
  let resourceMap := groupByResource assignments
  let resourceUtilization := resources.map (fun e =>
    let availableMinutes := (e.2.calendar.map (fun w => w.stop - w.start)).sum
    let resourceAssignments := lookupD resourceMap e.1 []
    let busyTime := (resourceAssignments.map (fun a => a.stop - a.start)).sum +
      changeoverMinutesOf resourceAssignments changeoverMatrix
    (e.1, jsRound (busyTime * 100) (max availableMinutes 1)))
  let changeovers := (resourceMap.map (fun e => changeoverCountOf e.2)).sum
  let maxEnd := assignments.foldl (fun m a => max m a.stop) 0
  let minStart : Option Int :=
    assignments.foldl (fun m a =>
      match m with
      | none => some a.start
      | some v => some (min v a.start)) none
  let makespan := if assignments.length > 0 then maxEnd - minStart.getD 0 else 0
  .success SCHEDULER_VERSION outputAssignments
    { tardiness_minutes := totalTardiness
    , changeovers := changeovers
    , makespan_minutes := makespan
    , utilization := resourceUtilization
    , on_time_jobs := onTimeJobs
    , total_jobs := products.length }

/-! ### The driving loop of `schedule` -/

/-- The mutable state of one scheduling run. -/
structure LoopState where
  resourceStates : List (String × ResourceState)
  assignmentsMap : List (String × List InternalAssignment)
  allAssignments : List InternalAssignment
  unscheduled : List SchedulableOperation
  iteration : Nat
deriving Repr, DecidableEq

/-- First adjacent pair violating `assigned[i].start >= assigned[i-1].end`. -/
def adjacentViolation : List InternalAssignment →
    Option (InternalAssignment × InternalAssignment)
  | [] => none
  | [_] => none
  | a :: b :: t =>
    if b.start < a.stop then some (a, b) else adjacentViolation (b :: t)

/-- The post-run validation of `schedule` (lines 497-517): first resource
(in map order) with an adjacent overlap on its re-sorted assignment list. -/
def checkOverlaps (resourceStates : List (String × ResourceState)) :
    Option (String × InternalAssignment × InternalAssignment) :=
  resourceStates.findSome? (fun e =>
    (adjacentViolation (sortByKey InternalAssignment.start e.2.assignments)).map
      (fun p => (e.1, p)))

/-- Success path after the loop: validation then `denormalizeResult`. -/
def finishRun (norm : Normalized) (st : LoopState) : ScheduleResult :=
  match checkOverlaps st.resourceStates with
  | some (rid, a, b) =>
    .failure SCHEDULER_VERSION "Validation failed: overlap detected"
      [.overlapDetail rid a.start a.stop b.start b.stop]
  | none =>
    denormalizeResult st.allAssignments norm.products norm.resources
      norm.changeoverMatrix

/-- One iteration of the `while` loop of `schedule` (lines 377-494),
assuming the pool is non-empty: either a terminal result or the next state.
The source mutates `nextOp` (an object shared with the pool) in lines
407-415; with unique `(productId, stepIndex)` keys — which hold whenever
product ids are unique — updating the first pool match is the same thing. -/
def scheduleStep (norm : Normalized) (productsMap : List (String × NormProduct))
    (maxIterations : Nat) (deadlineHit : Nat → Bool) (st : LoopState) :
    ScheduleResult ⊕ LoopState :=
  if deadlineHit st.iteration then
    .inl (.failure SCHEDULER_VERSION "Time limit exceeded" [.timeLimitText])
  else if st.iteration > maxIterations then
    .inl (.failure SCHEDULER_VERSION "Scheduler stuck in infinite loop"
      [.maxIterationsText])
  else
    match selectNextOperation st.unscheduled st.assignmentsMap productsMap with
    | none =>
      .inl (.failure SCHEDULER_VERSION "No ready operations available" [.deadlockText])
    | some nextOp0 =>
      let priorStop : Option Int :=
        if nextOp0.stepIndex > 0 then
          ((lookupD st.assignmentsMap nextOp0.productId []).find?
              (fun a => a.stepIndex + 1 == nextOp0.stepIndex)).map
            InternalAssignment.stop
        else none
      let nextOp :=
        match priorStop with
        | some e => { nextOp0 with earliestStart := e }
        | none => nextOp0
      let pool1 :=
        match priorStop with
        | some e =>
          updateFirstBy
            (fun o => o.productId == nextOp0.productId &&
              o.stepIndex == nextOp0.stepIndex)
            (fun o => { o with earliestStart := e }) st.unscheduled
        | none => st.unscheduled
      let eligible := getEligibleResources nextOp norm.resources
      if eligible.isEmpty then
        .inl (.failure SCHEDULER_VERSION "No eligible resources"
          [.opNoCapability nextOp.productId nextOp.stepIndex nextOp.capability])
      else
        let placed := tryPlaceOperation nextOp eligible st.resourceStates
          norm.changeoverMatrix
        match placed.1 with
        | none =>
          .inl (.failure SCHEDULER_VERSION "Cannot place operation"
            (.opNoSlot nextOp.productId nextOp.stepIndex nextOp.capability ::
              (match placed.2 with
               | some nm => [.closest nm.resource nm.gap nm.needed nm.changeoverTime]
               | none => [])))
        | some placement =>
          if placement.stop > norm.horizonEnd then
            .inl (.failure SCHEDULER_VERSION "Horizon exceeded"
              [.opHorizon nextOp.productId nextOp.stepIndex nextOp.capability
                placement.stop norm.horizonEnd])
          else
            let assignment : InternalAssignment :=
              { productId := nextOp.productId
              , productFamily := nextOp.productFamily
              , stepIndex := nextOp.stepIndex
              , operationName := nextOp.capability
              , resource := placement.resource
              , start := placement.start
              , stop := placement.stop }
            let am' := assocSet st.assignmentsMap nextOp.productId
              (lookupD st.assignmentsMap nextOp.productId [] ++ [assignment])
            let rs' := assocUpdate st.resourceStates placement.resource
              (fun s => updateResourceState s assignment)
            let pool2 :=
              updateFirstBy
                (fun o => o.productId == nextOp.productId &&
                  o.stepIndex == nextOp.stepIndex + 1)
                (fun o => { o with earliestStart := max o.earliestStart assignment.stop })
                pool1
            let pool3 :=
              spliceOutFirst
                (fun o => o.productId == nextOp.productId &&
                  o.stepIndex == nextOp.stepIndex) pool2
            .inr { resourceStates := rs'
                 , assignmentsMap := am'
                 , allAssignments := st.allAssignments ++ [assignment]
                 , unscheduled := pool3
                 , iteration := st.iteration + 1 }

theorem selectNextOperation_ne_nil {u am pm op}
    (h : selectNextOperation u am pm = some op) : u ≠ [] := by
  intro hu
  subst hu
  simp [selectNextOperation] at h

theorem updateFirstBy_length {α : Type} (p : α → Bool) (f : α → α) (l : List α) :
    (updateFirstBy p f l).length = l.length := by
  induction l with
  | nil => rfl
  | cons a t ih =>
    by_cases hp : p a <;> simp [updateFirstBy, hp, ih]

theorem spliceOutFirst_length_lt {α : Type} (p : α → Bool) (l : List α)
    (h : l ≠ []) : (spliceOutFirst p l).length < l.length := by
  unfold spliceOutFirst
  match hidx : l.findIdx? p with
  | some i =>
    have hi : i < l.length := (List.findIdx?_eq_some_iff_findIdx_eq.mp hidx).1
    have h0 : 0 < l.length := Nat.lt_of_le_of_lt (Nat.zero_le i) hi
    rw [List.length_eraseIdx, if_pos hi]
    omega
  | none =>
    have h0 : l.length ≠ 0 := fun h0 => h (List.length_eq_zero.mp h0)
    rw [List.length_dropLast]
    omega

theorem updateFirstBy_ne_nil {α : Type} (p : α → Bool) (f : α → α)
    (l : List α) (h : l ≠ []) : updateFirstBy p f l ≠ [] := by
  cases l with
  | nil => exact absurd rfl h
  | cons a t =>
    unfold updateFirstBy
    split <;> simp

/-- The pool of each `.inr` successor of `scheduleStep` is one operation
shorter: the loop terminates. -/
theorem scheduleStep_unscheduled_lt {norm pm maxIter d st st'}
    (hne : st.unscheduled ≠ [])
    (h : scheduleStep norm pm maxIter d st = .inr st') :
    st'.unscheduled.length < st.unscheduled.length := by
  unfold scheduleStep at h
  dsimp only at h
  repeat' (split at h)
  all_goals
    first
      | (injection h with h; subst h;
         refine Nat.lt_of_lt_of_le (spliceOutFirst_length_lt _ _ ?_)
           (by simp [updateFirstBy_length]);
         first
           | exact updateFirstBy_ne_nil _ _ _ hne
           | exact updateFirstBy_ne_nil _ _ _ (updateFirstBy_ne_nil _ _ _ hne))
      | injection h

/-- The driving loop with an explicit structural bound on the number of
iterations.  Since every `.inr` step removes exactly one operation from the
pool (`scheduleStep_unscheduled_lt`), a bound equal to the pool size never
runs out: at bound `0` the pool is provably empty and the loop exits just
as the source's `while` does.  `scheduleLoop_eq` below states the exact
`while`-loop unfolding. -/
def scheduleLoopF (norm : Normalized) (productsMap : List (String × NormProduct))
    (maxIterations : Nat) (deadlineHit : Nat → Bool) :
    Nat → LoopState → ScheduleResult × LoopState
  | 0, st => (finishRun norm st, st)
  | Nat.succ n, st =>
    if st.unscheduled = [] then (finishRun norm st, st)
    else
      match scheduleStep norm productsMap maxIterations deadlineHit st with
      | .inl res => (res, st)
      | .inr st' => scheduleLoopF norm productsMap maxIterations deadlineHit n st'

/-- The driving loop: repeat `scheduleStep` until the pool is empty, then
validate and compile the result.  Returns the result together with the
final loop state. -/
def scheduleLoop (norm : Normalized) (productsMap : List (String × NormProduct))
    (maxIterations : Nat) (deadlineHit : Nat → Bool) (st : LoopState) :
    ScheduleResult × LoopState :=
  scheduleLoopF norm productsMap maxIterations deadlineHit st.unscheduled.length st

/-- The iteration bound is irrelevant as long as it covers the pool size. -/
theorem scheduleLoopF_congr (norm : Normalized) (pm : List (String × NormProduct))
    (maxIter : Nat) (d : Nat → Bool) :
    ∀ n m st, st.unscheduled.length ≤ n → st.unscheduled.length ≤ m →
      scheduleLoopF norm pm maxIter d n st = scheduleLoopF norm pm maxIter d m st := by
  intro n
  induction n with
  | zero =>
    intro m st hn _
    have hnil : st.unscheduled = [] := List.length_eq_zero.mp (Nat.le_zero.mp hn)
    cases m with
    | zero => rfl
    | succ m => simp [scheduleLoopF, hnil]
  | succ n ih =>
    intro m st hn hm
    by_cases hnil : st.unscheduled = []
    · cases m with
      | zero => simp [scheduleLoopF, hnil]
      | succ m => simp [scheduleLoopF, hnil]
    · cases m with
      | zero =>
        exact absurd (List.length_eq_zero.mp (Nat.le_zero.mp hm)) hnil
      | succ m =>
        simp only [scheduleLoopF, if_neg hnil]
        match hstep : scheduleStep norm pm maxIter d st with
        | .inl res => rfl
        | .inr st' =>
          have hlt := scheduleStep_unscheduled_lt hnil hstep
          exact ih m st' (by omega) (by omega)

/-- `scheduleLoop` satisfies the exact unfolding of the source's `while`
loop (lines 377-495): exit and validate on an empty pool, otherwise run one
iteration and either return its terminal result or continue. -/
theorem scheduleLoop_eq (norm : Normalized) (pm : List (String × NormProduct))
    (maxIter : Nat) (d : Nat → Bool) (st : LoopState) :
    scheduleLoop norm pm maxIter d st =
      if st.unscheduled = [] then (finishRun norm st, st)
      else
        match scheduleStep norm pm maxIter d st with
        | .inl res => (res, st)
        | .inr st' => scheduleLoop norm pm maxIter d st' := by
  unfold scheduleLoop
  cases hn : st.unscheduled.length with
  | zero =>
    have hnil : st.unscheduled = [] := List.length_eq_zero.mp hn
    simp [scheduleLoopF, hnil]
  | succ n =>
    have hnil : st.unscheduled ≠ [] := by
      intro h0
      rw [h0] at hn
      exact Nat.noConfusion hn
    simp only [scheduleLoopF, if_neg hnil]
    match hstep : scheduleStep norm pm maxIter d st with
    | .inl res => rfl
    | .inr st' =>
      have hlt := scheduleStep_unscheduled_lt hnil hstep
      exact scheduleLoopF_congr norm pm maxIter d n st'.unscheduled.length st'
        (by omega) (Nat.le_refl _)

/-- `schedule`, returning the result together with the final loop state
(the source returns only the result; the state is exposed for the
invariant statements). -/
def scheduleInternal (inp : EngineInput) (deadlineHit : Nat → Bool) :
    ScheduleResult × LoopState :=
  let norm := normalizeInput inp
  let operations := buildOperationsList norm.products
  let productsMap := norm.products.foldl (fun m p => assocSet m p.id p) []
  let st0 : LoopState :=
    { resourceStates := norm.resources.map (fun e => (e.1, { lastFamily := none, assignments := [] }))
    , assignmentsMap := []
    , allAssignments := []
    , unscheduled := operations
    , iteration := 0 }
  if norm.products.length = 0 then
    (.success SCHEDULER_VERSION []
      { tardiness_minutes := 0, changeovers := 0, makespan_minutes := 0
      , utilization := [], on_time_jobs := 0, total_jobs := 0 }, st0)
  else
    scheduleLoop norm productsMap (operations.length * 5) deadlineHit st0

/-- `schedule` (result only). -/
def schedule (inp : EngineInput) (deadlineHit : Nat → Bool) : ScheduleResult :=
  (scheduleInternal inp deadlineHit).1

/-! ### Concrete inputs used by witnesses and counterexamples -/

/-- Deadline oracle of a run that never hits the wall-clock limit. -/
def neverDeadline : Nat → Bool := fun _ => false

/-- One resource whose normalized calendar has two windows `[0,6)` and
`[10,100)`; a 5-minute job then a 20-minute job, same family. -/
def calendarBugInput : EngineInput :=
  { horizonEnd := 200
  , resources := [{ id := "R1", capabilities := ["c1"], calendar := [⟨0, 6⟩, ⟨10, 100⟩] }]
  , products :=
      [ { id := "P1", family := "A", due := 100, route := [⟨"c1", 5⟩] }
      , { id := "P2", family := "A", due := 150, route := [⟨"c1", 20⟩] } ]
  , changeoverMatrix := [] }

/-- Two resources; `P1` (family A) runs step 0 on `R2` and step 1 on `R1`
at `[100,150)`; `P2` (family B, 30 min) is then inserted into the gap
before it at `[0,30)` although changeover B->A is 80 minutes. -/
def changeoverGapInput : EngineInput :=
  { horizonEnd := 300
  , resources :=
      [ { id := "R1", capabilities := ["c1"], calendar := [⟨0, 300⟩] }
      , { id := "R2", capabilities := ["c2"], calendar := [⟨0, 300⟩] } ]
  , products :=
      [ { id := "P1", family := "A", due := 200, route := [⟨"c2", 100⟩, ⟨"c1", 50⟩] }
      , { id := "P2", family := "B", due := 250, route := [⟨"c1", 30⟩] } ]
  , changeoverMatrix := [("B->A", 80)] }

/-- An input with an empty product list. -/
def emptyProductsInput : EngineInput :=
  { horizonEnd := 100
  , resources := [{ id := "R", capabilities := ["x"], calendar := [⟨0, 100⟩] }]
  , products := []
  , changeoverMatrix := [] }

/-- A product requiring a capability no resource has. -/
def noCapabilityInput : EngineInput :=
  { horizonEnd := 100
  , resources := [{ id := "R", capabilities := ["fill"], calendar := [⟨0, 100⟩] }]
  , products := [{ id := "P9", family := "std", due := 50, route := [⟨"pack", 30⟩] }]
  , changeoverMatrix := [] }

/-- Whether a why line carries a product id and step index (the
`Product {p}, step {s} (...)` templates). -/
def namesProductStep : WhyLine → Bool
  | .opNoCapability _ _ _ => true
  | .opNoSlot _ _ _ => true
  | .opHorizon _ _ _ _ _ => true
  | _ => false

/-! ### Claim C9: empty product list -/

/-- Claim C9: for every input whose product list is empty, `schedule`
returns success with no assignments, `tardiness_minutes = 0`,
`changeovers = 0`, `makespan_minutes = 0`, `on_time_jobs = 0`,
`total_jobs = 0` and an empty utilization map, without entering the
driving loop (the early return at lines 346-360 of `scheduler.ts`). -/
theorem C9_empty_input (inp : EngineInput) (d : Nat → Bool)
    (h : inp.products = []) :
    schedule inp d = .success SCHEDULER_VERSION []
      { tardiness_minutes := 0, changeovers := 0, makespan_minutes := 0
      , utilization := [], on_time_jobs := 0, total_jobs := 0 } := by
  unfold schedule scheduleInternal
  simp [normalizeInput, h]

/-- Witness for C9 at a concrete input. -/
theorem C9_empty_input_witness :
    schedule emptyProductsInput neverDeadline = .success SCHEDULER_VERSION []
      { tardiness_minutes := 0, changeovers := 0, makespan_minutes := 0
      , utilization := [], on_time_jobs := 0, total_jobs := 0 } :=
  C9_empty_input emptyProductsInput neverDeadline rfl

/-! ### Claim C1: calendar containment (violated by the code) -/

/-- Claim C1 (code bug): the claim states that in every successful schedule
every assignment's `[start,end)` lies within one calendar window of its
resource.  The code violates it: `tryPlaceOperation` computes
`gapStart = max(earliestStart, prevAssignment.end)` without clamping to
`window.start` when a previous assignment exists (lines 169-172), so a
previous assignment lying in an *earlier* window lets the candidate start
before the current window opens.  On `calendarBugInput` (windows `[0,6)`
and `[10,100)`) the run succeeds with `P2` placed at `[5,25)`, which is
contained in no calendar window of `R1`.  The repository's own constraint
model ("each operation must fit entirely within one working window") and
the acceptance test "assignments fit within resource calendar windows"
require containment, so this is a defect of the code, not of the claim. -/
theorem C1_calendar_containment_bug :
    schedule calendarBugInput neverDeadline = .success SCHEDULER_VERSION
      [ { product := "P1", operation := "c1", resource := "R1", start := 0, stop := 5 }
      , { product := "P2", operation := "c1", resource := "R1", start := 5, stop := 25 } ]
      { tardiness_minutes := 0, changeovers := 0, makespan_minutes := 25
      , utilization := [("R1", 26)], on_time_jobs := 2, total_jobs := 2 }
    ∧ (lookupD (normalizeInput calendarBugInput).resources "R1"
        { id := "", capabilities := [], calendar := [] }).calendar =
      [⟨0, 6⟩, ⟨10, 100⟩]
    ∧ ¬ isWithinCalendarWindow 5 25
        (lookupD (normalizeInput calendarBugInput).resources "R1"
          { id := "", capabilities := [], calendar := [] }).calendar := by
  refine ⟨by decide, by decide, by decide⟩

/-! ### Claim C2: changeover lower bound (counterexample and amendment) -/

/-- Counterexample to claim C2 as stated: on `changeoverGapInput` the run
succeeds, and on resource `R1` the chronologically adjacent pair is
`P2` (family B) at `[0,30)` followed by `P1` step 1 (family A) at
`[100,150)`; their distance is `100 - 30 = 70` minutes, strictly less than
`changeover(B, A) = 80`.  The pair arose by inserting the later placement
(`P2`) into the gap before the existing assignment, exactly the situation
the claim says must still satisfy the bound. -/
theorem C2_changeover_counterexample :
    schedule changeoverGapInput neverDeadline =
      .success SCHEDULER_VERSION
        [ { product := "P1", operation := "c2", resource := "R2", start := 0, stop := 100 }
        , { product := "P2", operation := "c1", resource := "R1", start := 0, stop := 30 }
        , { product := "P1", operation := "c1", resource := "R1", start := 100, stop := 150 } ]
        { tardiness_minutes := 0, changeovers := 1, makespan_minutes := 150
        , utilization := [("R1", 53), ("R2", 33)], on_time_jobs := 2, total_jobs := 2 }
    ∧ (lookupD (scheduleInternal changeoverGapInput neverDeadline).2.resourceStates
        "R1" { lastFamily := none, assignments := [] }).assignments =
      [ { productId := "P2", productFamily := "B", stepIndex := 0
        , operationName := "c1", resource := "R1", start := 0, stop := 30 }
      , { productId := "P1", productFamily := "A", stepIndex := 1
        , operationName := "c1", resource := "R1", start := 100, stop := 150 } ]
    ∧ getChangeoverTime (some "B") "A"
        (normalizeInput changeoverGapInput).changeoverMatrix = 80
    ∧ ((100 : Int) - 30 < 80) := by
  exact ⟨by decide, by decide, by decide, by decide⟩

/-! ### Claim C7: failure detail (counterexample for the deadlock reason) -/

/-- A loop state whose pool is non-empty but has no ready operation
(`P` step 1 with step 0 unassigned). -/
def deadlockDemoState : LoopState :=
  { resourceStates := [("R", { lastFamily := none, assignments := [] })]
  , assignmentsMap := []
  , allAssignments := []
  , unscheduled :=
      [ { productId := "P", productFamily := "F", stepIndex := 1
        , capability := "c", duration := 10, productDue := 50, earliestStart := 0 } ]
  , iteration := 0 }

/-- Normalized input for `deadlockDemoState`. -/
def deadlockDemoNorm : Normalized :=
  { horizonEnd := 100
  , resources := [("R", { id := "R", capabilities := ["c"], calendar := [⟨0, 100⟩] })]
  , products := []
  , changeoverMatrix := [] }

/-- Counterexample to claim C7 as stated: the claim says the
precedence-deadlock failure (returned when the ready set is empty while
unplaced operations remain, lines 398-405) identifies a specific product
and step.  It does not: the branch returns the fixed line
"Precedence deadlock detected", which carries no product or step, as this
evaluation of the loop body on a deadlocked state shows. -/
theorem C7_deadlock_counterexample :
    scheduleStep deadlockDemoNorm [] 100 neverDeadline deadlockDemoState =
      .inl (.failure SCHEDULER_VERSION "No ready operations available"
        [.deadlockText])
    ∧ [WhyLine.deadlockText].all (fun l => !namesProductStep l) = true := by
  exact ⟨by decide, by decide⟩

/-! ### Properties of `sortByKey` -/

theorem insertByKey_perm {α : Type} (key : α → Int) (x : α) (l : List α) :
    List.Perm (insertByKey key x l) (x :: l) := by
  induction l with
  | nil => exact List.Perm.refl _
  | cons y t ih =>
    unfold insertByKey
    by_cases h : key x ≤ key y
    · rw [if_pos h]
    · rw [if_neg h]
      exact (ih.cons y).trans (List.Perm.swap x y t)

theorem sortByKey_perm {α : Type} (key : α → Int) (l : List α) :
    List.Perm (sortByKey key l) l := by
  induction l with
  | nil => exact List.Perm.refl _
  | cons a t ih =>
    exact (insertByKey_perm key a (sortByKey key t)).trans (ih.cons a)

theorem insertByKey_head? {α : Type} (key : α → Int) (x : α) (l : List α) :
    (insertByKey key x l).head? = some x ∨
      (insertByKey key x l).head? = l.head? := by
  cases l with
  | nil => exact Or.inl rfl
  | cons y t =>
    unfold insertByKey
    by_cases h : key x ≤ key y
    · rw [if_pos h]; exact Or.inl rfl
    · rw [if_neg h]; exact Or.inr rfl

theorem insertByKey_chain' {α : Type} (key : α → Int) (x : α) (l : List α)
    (h : List.Chain' (fun a b => key a ≤ key b) l) :
    List.Chain' (fun a b => key a ≤ key b) (insertByKey key x l) := by
  induction l with
  | nil => exact List.chain'_singleton x
  | cons y t ih =>
    unfold insertByKey
    rw [List.chain'_cons'] at h
    by_cases hxy : key x ≤ key y
    · rw [if_pos hxy]
      refine List.chain'_cons'.mpr ⟨?_, List.chain'_cons'.mpr h⟩
      intro z hz
      simp only [List.head?_cons, Option.mem_def, Option.some.injEq] at hz
      rw [← hz]
      exact hxy
    · rw [if_neg hxy]
      refine List.chain'_cons'.mpr ⟨?_, ih h.2⟩
      intro z hz
      rcases insertByKey_head? key x t with hh | hh
      · rw [hh] at hz
        simp only [Option.mem_def, Option.some.injEq] at hz
        rw [← hz]
        omega
      · rw [hh] at hz
        exact h.1 z hz

theorem sortByKey_chain' {α : Type} (key : α → Int) (l : List α) :
    List.Chain' (fun a b => key a ≤ key b) (sortByKey key l) := by
  induction l with
  | nil => exact List.chain'_nil
  | cons a t ih => exact insertByKey_chain' key a (sortByKey key t) ih

theorem chain'_key_le_of_mem {α : Type} (key : α → Int) :
    ∀ (t : List α) (a : α), List.Chain' (fun a b => key a ≤ key b) (a :: t) →
      ∀ b ∈ t, key a ≤ key b := by
  intro t
  induction t with
  | nil =>
    intro a _ b hb
    cases hb
  | cons c t2 ih =>
    intro a h b hb
    rw [List.chain'_cons] at h
    rcases List.mem_cons.mp hb with hb | hb
    · rw [hb]
      exact h.1
    · exact le_trans h.1 (ih c h.2 b hb)

theorem chain'_key_pairwise {α : Type} (key : α → Int) :
    ∀ l : List α, List.Chain' (fun a b => key a ≤ key b) l →
      List.Pairwise (fun a b => key a ≤ key b) l := by
  intro l
  induction l with
  | nil => intro _; exact List.Pairwise.nil
  | cons a t ih =>
    intro h
    exact List.Pairwise.cons (chain'_key_le_of_mem key t a h)
      (ih ((List.chain'_cons'.mp h).2))

theorem sortByKey_eq_self {α : Type} (key : α → Int) :
    ∀ l : List α, List.Chain' (fun a b => key a ≤ key b) l →
      sortByKey key l = l := by
  intro l
  induction l with
  | nil => intro _; rfl
  | cons a t ih =>
    intro h
    rw [List.chain'_cons'] at h
    unfold sortByKey at *
    rw [List.foldr_cons, ih h.2]
    cases t with
    | nil => rfl
    | cons b t2 =>
      unfold insertByKey
      rw [if_pos (h.1 b rfl)]

/-! ### Claim C6: interval merge -/

/-- A point lies in (the union of) a set of half-open intervals. -/
def pointIn (t : Int) (l : List NormalizedInterval) : Prop :=
  ∃ iv ∈ l, iv.start ≤ t ∧ t < iv.stop

theorem pointIn_cons {t : Int} {iv : NormalizedInterval} {l : List NormalizedInterval} :
    pointIn t (iv :: l) ↔ (iv.start ≤ t ∧ t < iv.stop) ∨ pointIn t l := by
  constructor
  · rintro ⟨x, hx, hxt⟩
    rcases List.mem_cons.mp hx with h | h
    · rw [h] at hxt
      exact Or.inl hxt
    · exact Or.inr ⟨x, h, hxt⟩
  · rintro (h | ⟨x, hx, hxt⟩)
    · exact ⟨iv, List.mem_cons_self _ _, h⟩
    · exact ⟨x, List.mem_cons_of_mem _ hx, hxt⟩

theorem pointIn_of_perm {t : Int} {l l' : List NormalizedInterval}
    (h : List.Perm l l') : pointIn t l ↔ pointIn t l' := by
  constructor
  · rintro ⟨x, hx, hxt⟩
    exact ⟨x, h.mem_iff.mp hx, hxt⟩
  · rintro ⟨x, hx, hxt⟩
    exact ⟨x, h.mem_iff.mpr hx, hxt⟩

/-- Invariant of the merge fold.  The accumulator is kept reversed; its
head is the interval the source mutates in place. -/
theorem mergeFold_spec :
    ∀ (rest : List NormalizedInterval) (acc : List NormalizedInterval),
      acc ≠ [] →
      List.Pairwise (fun a b => a.start ≤ b.start) rest →
      (∀ a ∈ acc, ∀ r ∈ rest, a.start ≤ r.start) →
      List.Chain' (fun a b => b.start ≤ a.start) acc →
      List.Chain' (fun a b => b.stop < a.start) acc →
      (rest.foldl mergeStepRev acc ≠ [] ∧
        List.Chain' (fun a b => b.start ≤ a.start) (rest.foldl mergeStepRev acc) ∧
        List.Chain' (fun a b => b.stop < a.start) (rest.foldl mergeStepRev acc) ∧
        (∀ t, pointIn t (rest.foldl mergeStepRev acc) ↔
          (pointIn t acc ∨ pointIn t rest))) := by
  intro rest
  induction rest with
  | nil =>
    intro acc hne _ _ hs hm
    refine ⟨hne, hs, hm, fun t => ?_⟩
    simp [pointIn]
  | cons cur rest' ih =>
    intro acc hne hpair hstarts hs hm
    match acc, hne with
    | last :: acc'', _ =>
      rw [List.pairwise_cons] at hpair
      by_cases hcond : cur.start ≤ last.stop
      · -- merge into the last interval
        have hstep : mergeStepRev (last :: acc'') cur =
            { start := last.start, stop := max last.stop cur.stop } :: acc'' := by
          simp [mergeStepRev, hcond]
        rw [List.foldl_cons, hstep]
        have hlastcur : last.start ≤ cur.start :=
          hstarts last (List.mem_cons_self _ _) cur (List.mem_cons_self _ _)
        have hres := ih ({ start := last.start, stop := max last.stop cur.stop } :: acc'')
          (by simp)
          hpair.2
          (by
            intro a ha r hr
            rcases List.mem_cons.mp ha with ha | ha
            · rw [ha]
              exact hstarts last (List.mem_cons_self _ _) r (List.mem_cons_of_mem _ hr)
            · exact hstarts a (List.mem_cons_of_mem _ ha) r (List.mem_cons_of_mem _ hr))
          (by
            rw [List.chain'_cons'] at hs ⊢
            exact ⟨hs.1, hs.2⟩)
          (by
            rw [List.chain'_cons'] at hm ⊢
            exact ⟨hm.1, hm.2⟩)
        refine ⟨hres.1, hres.2.1, hres.2.2.1, fun t => ?_⟩
        rw [(hres.2.2.2 t)]
        simp only [pointIn_cons]
        constructor
        · rintro (h | h)
          · rcases h with (hin | hin)
            · rcases le_or_lt last.stop cur.stop with hms | hms
              · rw [max_eq_right hms] at hin
                by_cases ht : t < last.stop
                · exact Or.inl (Or.inl ⟨hin.1, ht⟩)
                · exact Or.inr (Or.inl ⟨by omega, hin.2⟩)
              · rw [max_eq_left (le_of_lt hms)] at hin
                exact Or.inl (Or.inl hin)
            · exact Or.inl (Or.inr hin)
          · exact Or.inr (Or.inr h)
        · rintro ((h | h) | h)
          · exact Or.inl (Or.inl ⟨h.1, lt_of_lt_of_le h.2 (le_max_left _ _)⟩)
          · exact Or.inl (Or.inr h)
          · rcases h with (h | h)
            · exact Or.inl (Or.inl ⟨le_trans hlastcur h.1,
                lt_of_lt_of_le h.2 (le_max_right _ _)⟩)
            · exact Or.inr h
      · -- push a new interval
        have hstep : mergeStepRev (last :: acc'') cur = cur :: last :: acc'' := by
          simp [mergeStepRev, hcond]
        rw [List.foldl_cons, hstep]
        have hlastcur : last.start ≤ cur.start :=
          hstarts last (List.mem_cons_self _ _) cur (List.mem_cons_self _ _)
        have hres := ih (cur :: last :: acc'')
          (by simp)
          hpair.2
          (by
            intro a ha r hr
            rcases List.mem_cons.mp ha with ha | ha
            · rw [ha]
              exact hpair.1 r hr
            · exact hstarts a ha r (List.mem_cons_of_mem _ hr))
          (List.chain'_cons'.mpr ⟨by
              intro z hz
              simp only [List.head?_cons, Option.mem_def, Option.some.injEq] at hz
              rw [← hz]
              exact hlastcur, hs⟩)
          (List.chain'_cons'.mpr ⟨by
              intro z hz
              simp only [List.head?_cons, Option.mem_def, Option.some.injEq] at hz
              rw [← hz]
              omega, hm⟩)
        refine ⟨hres.1, hres.2.1, hres.2.2.1, fun t => ?_⟩
        rw [(hres.2.2.2 t)]
        simp only [pointIn_cons]
        tauto

theorem merged_chain_pairwise :
    ∀ l : List NormalizedInterval,
      List.Chain' (fun a b => a.start ≤ b.start) l →
      List.Chain' (fun a b => a.stop < b.start) l →
      List.Pairwise (fun a b => a.stop < b.start) l := by
  intro l
  induction l with
  | nil => intro _ _; exact List.Pairwise.nil
  | cons a t ih =>
    intro hs hm
    rw [List.chain'_cons'] at hs hm
    refine List.Pairwise.cons ?_ (ih hs.2 hm.2)
    intro b hb
    cases t with
    | nil => cases hb
    | cons c t2 =>
      have hac : a.stop < c.start := hm.1 c rfl
      rcases List.mem_cons.mp hb with hb | hb
      · rw [hb]
        exact hac
      · have hcb := chain'_key_le_of_mem NormalizedInterval.start t2 c hs.2 b hb
        omega

/-- A fold over an already-merged list never merges: it just reverses. -/
theorem mergeFold_no_merge :
    ∀ (rest : List NormalizedInterval) (last : NormalizedInterval)
      (acc : List NormalizedInterval),
      List.Chain' (fun a b => a.stop < b.start) (last :: rest) →
      rest.foldl mergeStepRev (last :: acc) = rest.reverse ++ last :: acc := by
  intro rest
  induction rest with
  | nil =>
    intro last acc _
    rfl
  | cons cur rest' ih =>
    intro last acc h
    rw [List.chain'_cons] at h
    have hstep : mergeStepRev (last :: acc) cur = cur :: last :: acc := by
      have : ¬ cur.start ≤ last.stop := by
        have := h.1
        omega
      simp [mergeStepRev, this]
    rw [List.foldl_cons, hstep, ih cur (last :: acc) h.2]
    simp

/-- Claim C6: `combineOverlappingIntervals` returns a list sorted by start,
pairwise non-overlapping and non-adjacent (`a.stop < b.start` for every
earlier/later pair), whose union of points equals the union of the input;
it maps the empty list to the empty list, and it is idempotent. -/
theorem C6_interval_merge (l : List NormalizedInterval) :
    List.Chain' (fun a b => a.start ≤ b.start) (combineOverlappingIntervals l)
    ∧ List.Pairwise (fun a b => a.stop < b.start) (combineOverlappingIntervals l)
    ∧ List.Pairwise (fun a b => ¬ doIntervalsOverlap a b ∧ a.stop ≠ b.start)
        (combineOverlappingIntervals l)
    ∧ (∀ t : Int, pointIn t (combineOverlappingIntervals l) ↔ pointIn t l)
    ∧ combineOverlappingIntervals ([] : List NormalizedInterval) = []
    ∧ combineOverlappingIntervals (combineOverlappingIntervals l) =
        combineOverlappingIntervals l := by
  have main : ∀ m : List NormalizedInterval,
      List.Chain' (fun a b => a.start ≤ b.start) (combineOverlappingIntervals m)
      ∧ List.Chain' (fun a b => a.stop < b.start) (combineOverlappingIntervals m)
      ∧ (∀ t : Int, pointIn t (combineOverlappingIntervals m) ↔ pointIn t m) := by
    intro m
    match hsort : sortByKey NormalizedInterval.start m with
    | [] =>
      have hm : m = [] := by
        have hp := sortByKey_perm NormalizedInterval.start m
        rw [hsort] at hp
        exact (hp.nil_eq).symm
      subst hm
      refine ⟨List.chain'_nil, List.chain'_nil, fun t => Iff.rfl⟩
    | first :: rest =>
      have hcomb : combineOverlappingIntervals m =
          (rest.foldl mergeStepRev [first]).reverse := by
        unfold combineOverlappingIntervals
        rw [hsort]
      have hchain : List.Chain' (fun a b => a.start ≤ b.start) (first :: rest) := by
        have := sortByKey_chain' NormalizedInterval.start m
        rw [hsort] at this
        exact this
      have hpair := chain'_key_pairwise NormalizedInterval.start _ hchain
      rw [List.pairwise_cons] at hpair
      have hfold := mergeFold_spec rest [first] (by simp) hpair.2
        (by
          intro a ha r hr
          rcases List.mem_cons.mp ha with ha | ha
          · rw [ha]
            exact hpair.1 r hr
          · cases ha)
        (List.chain'_singleton first) (List.chain'_singleton first)
      refine ⟨?_, ?_, ?_⟩
      · rw [hcomb]
        exact List.chain'_reverse.mpr hfold.2.1
      · rw [hcomb]
        exact List.chain'_reverse.mpr hfold.2.2.1
      · intro t
        rw [hcomb]
        rw [pointIn_of_perm (List.reverse_perm _)]
        rw [hfold.2.2.2 t]
        have hperm := sortByKey_perm NormalizedInterval.start m
        rw [hsort] at hperm
        rw [← pointIn_of_perm hperm]
        rw [pointIn_cons, pointIn_cons]
        have hnil : ¬ pointIn t ([] : List NormalizedInterval) := by
          rintro ⟨x, hx, _⟩
          cases hx
        tauto
  obtain ⟨hs, hm, hu⟩ := main l
  refine ⟨hs, merged_chain_pairwise _ hs hm, ?_, hu, rfl, ?_⟩
  · refine (merged_chain_pairwise _ hs hm).imp ?_
    intro a b hab
    constructor
    · intro hov
      rcases hov with ⟨_, h2⟩
      omega
    · omega
  · -- idempotence: re-sorting is the identity and the fold never merges
    have hsorted := sortByKey_eq_self NormalizedInterval.start _ hs
    match hL : combineOverlappingIntervals l with
    | [] => rfl
    | f2 :: r2 =>
      rw [hL] at hsorted hm
      unfold combineOverlappingIntervals
      rw [hsorted]
      show (List.foldl mergeStepRev [f2] r2).reverse = f2 :: r2
      rw [mergeFold_no_merge r2 f2 [] hm]
      simp

/-! ### Claim C5: priority selection -/

/-- The slack key of the comparator:
`due - earliest_start - remaining_work`, where `remaining_work` sums the
durations of this and all later steps of the operation's product (looked up
in `productsMap`, as the source does). -/
def slack (productsMap : List (String × NormProduct))
    (op : SchedulableOperation) : Int :=
  op.productDue - op.earliestStart -
    remainingWork (lookupD productsMap op.productId defaultProduct).route op.stepIndex

/-- The ascending total preorder of the claim: due date, then slack, then
duration, lexicographically. -/
def opLexLt (productsMap : List (String × NormProduct))
    (a b : SchedulableOperation) : Prop :=
  a.productDue < b.productDue
  ∨ (a.productDue = b.productDue ∧
      (slack productsMap a < slack productsMap b
       ∨ (slack productsMap a = slack productsMap b ∧ a.duration < b.duration)))

theorem opCompare_neg_iff (pm : List (String × NormProduct))
    (a b : SchedulableOperation) :
    opCompare pm a b < 0 ↔ opLexLt pm a b := by
  simp only [opCompare, opLexLt, slack]
  split_ifs with h1 h2
  · omega
  · omega
  · omega

theorem opLexLt_trans {pm : List (String × NormProduct)}
    {a b c : SchedulableOperation}
    (h1 : opLexLt pm a b) (h2 : opLexLt pm b c) : opLexLt pm a c := by
  unfold opLexLt at *
  omega

theorem opLexLt_irrefl {pm : List (String × NormProduct)}
    {a : SchedulableOperation} : ¬ opLexLt pm a a := by
  unfold opLexLt
  omega

theorem opLexLt_of_lt_of_not_lt {pm : List (String × NormProduct)}
    {a b c : SchedulableOperation}
    (h1 : opLexLt pm a b) (h2 : ¬ opLexLt pm c b) : opLexLt pm a c := by
  unfold opLexLt at *
  omega

/-- The accumulator fold of `selectNextOperation` (stable sort followed by
taking the head keeps the first element attaining the minimum). -/
def selectBest (pm : List (String × NormProduct)) (h : SchedulableOperation)
    (t : List SchedulableOperation) : SchedulableOperation :=
  t.foldl (fun best op => if opCompare pm op best < 0 then op else best) h

theorem selectNextOperation_eq (u : List SchedulableOperation)
    (am : List (String × List InternalAssignment))
    (pm : List (String × NormProduct)) :
    selectNextOperation u am pm =
      match u.filter (isReady am) with
      | [] => none
      | h :: t => some (selectBest pm h t) := rfl

/-- `selectBest` returns the first minimum of `h :: t` under `opLexLt`:
it splits the list around the returned element, everything is `≥` it, and
everything strictly before it is strictly greater. -/
theorem selectBest_spec (pm : List (String × NormProduct)) :
    ∀ (t : List SchedulableOperation) (h : SchedulableOperation),
      ∃ l1 l2, h :: t = l1 ++ selectBest pm h t :: l2
        ∧ (∀ b ∈ h :: t, ¬ opLexLt pm b (selectBest pm h t))
        ∧ (∀ b ∈ l1, opLexLt pm (selectBest pm h t) b) := by
  intro t
  induction t with
  | nil =>
    intro h
    refine ⟨[], [], rfl, ?_, ?_⟩
    · intro b hb
      rcases List.mem_cons.mp hb with hb | hb
      · rw [hb]
        exact opLexLt_irrefl
      · cases hb
    · intro b hb
      cases hb
  | cons x t' ih =>
    intro h
    have hfold : selectBest pm h (x :: t') =
        selectBest pm (if opCompare pm x h < 0 then x else h) t' := rfl
    by_cases hxh : opLexLt pm x h
    · -- the new element improves on the head
      have hcond : opCompare pm x h < 0 := (opCompare_neg_iff pm x h).mpr hxh
      rw [hfold, if_pos hcond]
      obtain ⟨l1', l2', heq, hmin, hfirst⟩ := ih x
      refine ⟨h :: l1', l2', ?_, ?_, ?_⟩
      · rw [List.cons_append, ← heq]
      · intro b hb
        rcases List.mem_cons.mp hb with hb | hb
        · rw [hb]
          intro hcontra
          exact hmin x (List.mem_cons_self _ _) (opLexLt_trans hxh hcontra)
        · exact hmin b hb
      · intro b hb
        rcases List.mem_cons.mp hb with hb | hb
        · rw [hb]
          cases l1' with
          | nil =>
            have : selectBest pm x t' = x := by
              have := heq
              rw [List.nil_append] at this
              exact (List.cons.injEq _ _ _ _ ▸ this).1.symm
            rw [this]
            exact hxh
          | cons y l1'' =>
            have hyx : y = x := by
              have := heq
              rw [List.cons_append] at this
              exact ((List.cons.injEq _ _ _ _ ▸ this).1).symm
            have hmy : opLexLt pm (selectBest pm x t') x := by
              have hy := hfirst y (List.mem_cons_self _ _)
              rw [hyx] at hy
              exact hy
            exact opLexLt_trans hmy hxh
        · exact hfirst b hb
    · -- the head survives the comparison
      have hcond : ¬ opCompare pm x h < 0 := fun hc =>
        hxh ((opCompare_neg_iff pm x h).mp hc)
      rw [hfold, if_neg hcond]
      obtain ⟨l1', l2', heq, hmin, hfirst⟩ := ih h
      cases l1' with
      | nil =>
        have hmh : selectBest pm h t' = h := by
          have := heq
          rw [List.nil_append] at this
          exact (List.cons.injEq _ _ _ _ ▸ this).1.symm
        refine ⟨[], x :: t', by rw [List.nil_append, hmh], ?_, ?_⟩
        · intro b hb
          rcases List.mem_cons.mp hb with hb | hb
          · rw [hb]
            exact hmin h (List.mem_cons_self _ _)
          · rcases List.mem_cons.mp hb with hb | hb
            · rw [hb, hmh]
              exact hxh
            · exact hmin b (List.mem_cons_of_mem _ hb)
        · intro b hb
          cases hb
      | cons y l1'' =>
        have hyh : y = h := by
          have := heq
          rw [List.cons_append] at this
          exact ((List.cons.injEq _ _ _ _ ▸ this).1).symm
        have ht' : t' = l1'' ++ selectBest pm h t' :: l2' := by
          have := heq
          rw [List.cons_append] at this
          exact (List.cons.injEq _ _ _ _ ▸ this).2
        have hmlt : opLexLt pm (selectBest pm h t') h := by
          have hy := hfirst y (List.mem_cons_self _ _)
          rw [hyh] at hy
          exact hy
        refine ⟨h :: x :: l1'', l2', ?_, ?_, ?_⟩
        · rw [List.cons_append, List.cons_append, ← ht']
        · intro b hb
          rcases List.mem_cons.mp hb with hb | hb
          · rw [hb]
            exact hmin h (List.mem_cons_self _ _)
          · rcases List.mem_cons.mp hb with hb | hb
            · rw [hb]
              intro hcontra
              exact hxh (opLexLt_of_lt_of_not_lt hcontra
                (fun hc => (opLexLt_irrefl (opLexLt_trans hmlt hc))))
            · exact hmin b (List.mem_cons_of_mem _ hb)
        · intro b hb
          rcases List.mem_cons.mp hb with hb | hb
          · rw [hb]
            exact hmlt
          · rcases List.mem_cons.mp hb with hb | hb
            · rw [hb]
              exact opLexLt_of_lt_of_not_lt hmlt hxh
            · exact hfirst b (List.mem_cons_of_mem _ hb)

/-- Claim C5: for every non-empty ready subset of the pool,
`selectNextOperation` returns exactly one operation: the ready list splits
as `l1 ++ op :: l2` where `op` is minimal under the ascending
lexicographic order (1) due date, (2) slack (due − earliest start −
remaining work of this and later steps), (3) duration, and every ready
operation before `op` is strictly greater — so ties after all three keys
are broken by original pool order (the ready list preserves pool order).
The function is pure, so two runs on identical input select identical
operations. -/
theorem C5_priority_selection (u : List SchedulableOperation)
    (am : List (String × List InternalAssignment))
    (pm : List (String × NormProduct))
    (hne : u.filter (isReady am) ≠ []) :
    ∃ op l1 l2,
      selectNextOperation u am pm = some op ∧
      u.filter (isReady am) = l1 ++ op :: l2 ∧
      (∀ b ∈ u.filter (isReady am), ¬ opLexLt pm b op) ∧
      (∀ b ∈ l1, opLexLt pm op b) := by
  rw [selectNextOperation_eq]
  match hf : u.filter (isReady am) with
  | [] => exact absurd hf hne
  | h :: t =>
    obtain ⟨l1, l2, heq, hmin, hfirst⟩ := selectBest_spec pm t h
    exact ⟨selectBest pm h t, l1, l2, rfl, heq, hmin, hfirst⟩

/-- Pool used by the C5 witness: two ready step-0 operations, the second
one more urgent (earlier due date). -/
def selectDemoPool : List SchedulableOperation :=
  [ { productId := "A", productFamily := "F", stepIndex := 0
    , capability := "c", duration := 10, productDue := 50, earliestStart := 0 }
  , { productId := "B", productFamily := "G", stepIndex := 0
    , capability := "c", duration := 5, productDue := 40, earliestStart := 0 } ]

/-- Products map for the C5 witness. -/
def selectDemoProducts : List (String × NormProduct) :=
  [ ("A", { id := "A", family := "F", due := 50, route := [⟨"c", 10⟩] })
  , ("B", { id := "B", family := "G", due := 40, route := [⟨"c", 5⟩] }) ]

/-- Witness for C5 at a concrete pool. -/
theorem C5_priority_selection_witness :
    ∃ op l1 l2,
      selectNextOperation selectDemoPool [] selectDemoProducts = some op ∧
      selectDemoPool.filter (isReady []) = l1 ++ op :: l2 ∧
      (∀ b ∈ selectDemoPool.filter (isReady []), ¬ opLexLt selectDemoProducts b op) ∧
      (∀ b ∈ l1, opLexLt selectDemoProducts op b) :=
  C5_priority_selection selectDemoPool [] selectDemoProducts (by decide)

/-! ### A Hoare-style rule for the driving loop -/

/-- Generic reasoning principle for `scheduleLoop`: an invariant preserved
by every continuing step, together with postcondition proofs at the three
exits (terminal step result, empty-pool validation/compilation), yields the
postcondition of the whole loop. -/
theorem scheduleLoop_rule (norm : Normalized) (pm : List (String × NormProduct))
    (maxIter : Nat) (d : Nat → Bool)
    (Inv : LoopState → Prop) (Post : ScheduleResult → LoopState → Prop)
    (hstep : ∀ st st', Inv st → st.unscheduled ≠ [] →
      scheduleStep norm pm maxIter d st = .inr st' → Inv st')
    (hdone : ∀ st res, Inv st → st.unscheduled ≠ [] →
      scheduleStep norm pm maxIter d st = .inl res → Post res st)
    (hbase : ∀ st, Inv st → st.unscheduled = [] → Post (finishRun norm st) st) :
    ∀ st, Inv st →
      Post (scheduleLoop norm pm maxIter d st).1 (scheduleLoop norm pm maxIter d st).2 := by
  suffices h : ∀ n st, st.unscheduled.length ≤ n → Inv st →
      Post (scheduleLoopF norm pm maxIter d n st).1
        (scheduleLoopF norm pm maxIter d n st).2 by
    intro st hinv
    exact h st.unscheduled.length st (Nat.le_refl _) hinv
  intro n
  induction n with
  | zero =>
    intro st hlen hinv
    have hnil := List.length_eq_zero.mp (Nat.le_zero.mp hlen)
    exact hbase st hinv hnil
  | succ n ih =>
    intro st hlen hinv
    by_cases hnil : st.unscheduled = []
    · simp only [scheduleLoopF, if_pos hnil]
      exact hbase st hinv hnil
    · simp only [scheduleLoopF, if_neg hnil]
      cases hstep2 : scheduleStep norm pm maxIter d st with
      | inl res =>
        exact hdone st res hinv hnil hstep2
      | inr st' =>
        have hlt := scheduleStep_unscheduled_lt hnil hstep2
        exact ih st' (by omega) (hstep st st' hinv hnil hstep2)

/-- Every continuing step increments the iteration counter by one. -/
theorem scheduleStep_inr_iteration {norm pm maxIter d st st'}
    (h : scheduleStep norm pm maxIter d st = .inr st') :
    st'.iteration = st.iteration + 1 := by
  unfold scheduleStep at h
  dsimp only at h
  repeat' (split at h)
  all_goals first
    | (injection h with h; subst h; rfl)
    | injection h

/-- Every terminal step result is a failure carrying the schema version. -/
theorem scheduleStep_inl_failure {norm pm maxIter d st res}
    (h : scheduleStep norm pm maxIter d st = .inl res) :
    ∃ e w, res = .failure SCHEDULER_VERSION e w := by
  unfold scheduleStep at h
  dsimp only at h
  repeat' (split at h)
  all_goals first
    | (injection h with h; exact ⟨_, _, h.symm⟩)
    | injection h

/-- Whether a result is the "Scheduler stuck in infinite loop" failure. -/
def isStuckLoopFailure : ScheduleResult → Bool
  | .failure _ e _ => e == "Scheduler stuck in infinite loop"
  | _ => false

/-- The loop body never returns the "stuck" failure unless its iteration
counter already exceeds `maxIterations` on entry. -/
theorem scheduleStep_not_stuck {norm pm maxIter d st res}
    (h : scheduleStep norm pm maxIter d st = .inl res)
    (hiter : st.iteration ≤ maxIter) :
    isStuckLoopFailure res = false := by
  unfold scheduleStep at h
  dsimp only at h
  repeat' (split at h)
  all_goals try (injection h)
  all_goals subst_vars
  all_goals first | rfl | omega

/-! ### Characterization of a continuing loop step -/

/-- The assignment record built by the loop from the selected operation and
the chosen placement (lines 463-471). -/
def mkAssignment (op : SchedulableOperation) (placement : Candidate) :
    InternalAssignment :=
  { productId := op.productId, productFamily := op.productFamily
  , stepIndex := op.stepIndex, operationName := op.capability
  , resource := placement.resource, start := placement.start
  , stop := placement.stop }

/-- Everything a continuing step does, in terms of the entry state: which
operation was selected, how its `earliestStart` was refreshed from the
prior step's assignment, which placement was chosen, and the exact
successor state. -/
theorem scheduleStep_inr_spec {norm : Normalized} {pm : List (String × NormProduct)}
    {maxIter : Nat} {d : Nat → Bool} {st st' : LoopState}
    (h : scheduleStep norm pm maxIter d st = .inr st') :
    ∃ nextOp0 nextOp pool1 placement nearMiss,
      selectNextOperation st.unscheduled st.assignmentsMap pm = some nextOp0 ∧
      (((nextOp0.stepIndex = 0 ∨
          (lookupD st.assignmentsMap nextOp0.productId []).find?
            (fun a => a.stepIndex + 1 == nextOp0.stepIndex) = none) ∧
          nextOp = nextOp0 ∧ pool1 = st.unscheduled)
        ∨ (∃ prior, nextOp0.stepIndex > 0 ∧
            (lookupD st.assignmentsMap nextOp0.productId []).find?
              (fun a => a.stepIndex + 1 == nextOp0.stepIndex) = some prior ∧
            nextOp = { nextOp0 with earliestStart := prior.stop } ∧
            pool1 = updateFirstBy
              (fun o => o.productId == nextOp0.productId &&
                o.stepIndex == nextOp0.stepIndex)
              (fun o => { o with earliestStart := prior.stop }) st.unscheduled)) ∧
      tryPlaceOperation nextOp (getEligibleResources nextOp norm.resources)
        st.resourceStates norm.changeoverMatrix = (some placement, nearMiss) ∧
      ¬ placement.stop > norm.horizonEnd ∧
      st' = { resourceStates := assocUpdate st.resourceStates placement.resource
                (fun s => updateResourceState s (mkAssignment nextOp placement))
            , assignmentsMap := assocSet st.assignmentsMap nextOp.productId
                (lookupD st.assignmentsMap nextOp.productId []
                  ++ [mkAssignment nextOp placement])
            , allAssignments := st.allAssignments ++ [mkAssignment nextOp placement]
            , unscheduled := spliceOutFirst
                (fun o => o.productId == nextOp.productId &&
                  o.stepIndex == nextOp.stepIndex)
                (updateFirstBy
                  (fun o => o.productId == nextOp.productId &&
                    o.stepIndex == nextOp.stepIndex + 1)
                  (fun o => { o with earliestStart := max o.earliestStart (mkAssignment nextOp placement).stop })
                  pool1)
            , iteration := st.iteration + 1 } := by
  unfold scheduleStep at h
  dsimp only at h
  repeat' (split at h)
  all_goals try (injection h)
  all_goals subst_vars
  case isFalse.isFalse.h_2.isTrue.isFalse.h_2.isFalse.h_1 =>
    rename_i nextOp0 hsel hgt hne cnd placement hplaced hhor priorStop e heqmap
    obtain ⟨prior, hfind, hstop⟩ := Option.map_eq_some'.mp heqmap
    subst hstop
    rw [heqmap] at hplaced
    exact ⟨nextOp0, { nextOp0 with earliestStart := prior.stop }, _, placement,
      (tryPlaceOperation { nextOp0 with earliestStart := prior.stop }
        (getEligibleResources { nextOp0 with earliestStart := prior.stop } norm.resources)
        st.resourceStates norm.changeoverMatrix).2,
      hsel, Or.inr ⟨prior, hgt, hfind, rfl, rfl⟩, Prod.ext hplaced rfl, hhor, rfl⟩
  case isFalse.isFalse.h_2.isTrue.isFalse.h_2.isFalse.h_2 =>
    rename_i nextOp0 hsel hgt hne cnd placement hplaced hhor priorStop heqmap
    rw [heqmap] at hplaced
    exact ⟨nextOp0, nextOp0, st.unscheduled, placement,
      (tryPlaceOperation nextOp0 (getEligibleResources nextOp0 norm.resources)
        st.resourceStates norm.changeoverMatrix).2,
      hsel, Or.inl ⟨Or.inr (Option.map_eq_none'.mp heqmap), rfl, rfl⟩,
      Prod.ext hplaced rfl, hhor, rfl⟩
  case isFalse.isFalse.h_2.isFalse.isFalse.h_2.isFalse.h_1 =>
    rename_i e heqmap
    exact Option.noConfusion heqmap
  case isFalse.isFalse.h_2.isFalse.isFalse.h_2.isFalse.h_2 =>
    rename_i nextOp0 hsel hgt hne cnd placement hplaced hhor priorStop heqmap
    have hz : nextOp0.stepIndex = 0 := by omega
    exact ⟨nextOp0, nextOp0, st.unscheduled, placement,
      (tryPlaceOperation nextOp0 (getEligibleResources nextOp0 norm.resources)
        st.resourceStates norm.changeoverMatrix).2,
      hsel, Or.inl ⟨Or.inl hz, rfl, rfl⟩, Prod.ext hplaced rfl, hhor, rfl⟩

/-! ### Claim C10: loop progress -/

theorem finishRun_not_stuck (norm : Normalized) (st : LoopState) :
    isStuckLoopFailure (finishRun norm st) = false := by
  unfold finishRun
  cases hc : checkOverlaps st.resourceStates with
  | some v =>
    match v with
    | (rid, a, b) => rfl
  | none => rfl

/-- Claim C10: every iteration of the driving loop either returns a
terminal result or removes exactly one operation from the pool
(`scheduleStep_unscheduled_lt`), so with `maxIterations = N * 5` for `N`
operations, the iteration counter (which rises by one per continuing
iteration, `scheduleStep_inr_iteration`) never exceeds `maxIterations` and
the "Scheduler stuck in infinite loop" branch is unreachable for every
input and every deadline oracle. -/
theorem C10_loop_progress (inp : EngineInput) (d : Nat → Bool) :
    isStuckLoopFailure (schedule inp d) = false := by
  unfold schedule scheduleInternal
  dsimp only
  by_cases hp : (normalizeInput inp).products.length = 0
  · rw [if_pos hp]
    rfl
  · rw [if_neg hp]
    exact scheduleLoop_rule (normalizeInput inp) _ _ d
      (fun st => st.iteration + st.unscheduled.length ≤
        (buildOperationsList (normalizeInput inp).products).length)
      (fun res _ => isStuckLoopFailure res = false)
      (fun st st' hinv hne hstep => by
        have h1 := scheduleStep_inr_iteration hstep
        have h2 := scheduleStep_unscheduled_lt hne hstep
        omega)
      (fun st res hinv hne hstep =>
        scheduleStep_not_stuck hstep (by omega))
      (fun st hinv hnil => finishRun_not_stuck _ _)
      _ (by simp)

/-! ### Claim C7 (amended): which failures name the offending product/step -/

theorem denormalizeResult_success (assignments : List InternalAssignment)
    (products : List NormProduct) (resources : List (String × NormResource))
    (matrix : List (String × Int)) :
    ∃ a k, denormalizeResult assignments products resources matrix =
      .success SCHEDULER_VERSION a k :=
  ⟨_, _, rfl⟩

/-- Shape of every terminal result of the loop body: the three placement
failures carry a `Product {p}, step {s}` line, the deadlock failure carries
only the fixed text. -/
theorem scheduleStep_inl_names {norm : Normalized} {pm : List (String × NormProduct)}
    {maxIter : Nat} {d : Nat → Bool} {st : LoopState} {res : ScheduleResult}
    (h : scheduleStep norm pm maxIter d st = .inl res) :
    (∀ v w, res = .failure v "No eligible resources" w →
      ∃ p s c, w = [.opNoCapability p s c])
    ∧ (∀ v w, res = .failure v "Cannot place operation" w →
      ∃ p s c rest, w = .opNoSlot p s c :: rest)
    ∧ (∀ v w, res = .failure v "Horizon exceeded" w →
      ∃ p s c e, w = [.opHorizon p s c e norm.horizonEnd])
    ∧ (∀ v w, res = .failure v "No ready operations available" w →
      w = [.deadlockText]) := by
  unfold scheduleStep at h
  dsimp only at h
  repeat' (split at h)
  all_goals try (injection h)
  all_goals subst_vars
  all_goals refine ⟨?_, ?_, ?_, ?_⟩
  all_goals intro v w heq
  all_goals simp only [ScheduleResult.failure.injEq] at heq
  all_goals first
    | exact absurd heq.2.1 (by decide)
    | (rw [← heq.2.2]; exact ⟨_, _, _, rfl⟩)
    | (rw [← heq.2.2]; exact ⟨_, _, _, _, rfl⟩)
    | (rw [← heq.2.2])

/-- Claim C7 (amended): in every run, a failure with error
"No eligible resources" or "Horizon exceeded" has a single why line naming
the offending product and step (and for the horizon failure the horizon
length); a "Cannot place operation" failure's first why line names them;
and the precedence-deadlock failure ("No ready operations available") has
exactly the fixed line "Precedence deadlock detected", which names no
product or step. -/
theorem C7_failure_detail (inp : EngineInput) (d : Nat → Bool) :
    (∀ v w, schedule inp d = .failure v "No eligible resources" w →
      ∃ p s c, w = [.opNoCapability p s c])
    ∧ (∀ v w, schedule inp d = .failure v "Cannot place operation" w →
      ∃ p s c rest, w = .opNoSlot p s c :: rest)
    ∧ (∀ v w, schedule inp d = .failure v "Horizon exceeded" w →
      ∃ p s c e, w = [.opHorizon p s c e (normalizeInput inp).horizonEnd])
    ∧ (∀ v w, schedule inp d = .failure v "No ready operations available" w →
      w = [.deadlockText]) := by
  unfold schedule scheduleInternal
  dsimp only
  by_cases hp : (normalizeInput inp).products.length = 0
  · rw [if_pos hp]
    refine ⟨?_, ?_, ?_, ?_⟩ <;> (intro v w heq; simp at heq)
  · rw [if_neg hp]
    exact scheduleLoop_rule (normalizeInput inp) _ _ d
      (fun _ => True)
      (fun res _ =>
        (∀ v w, res = .failure v "No eligible resources" w →
          ∃ p s c, w = [.opNoCapability p s c])
        ∧ (∀ v w, res = .failure v "Cannot place operation" w →
          ∃ p s c rest, w = .opNoSlot p s c :: rest)
        ∧ (∀ v w, res = .failure v "Horizon exceeded" w →
          ∃ p s c e, w = [.opHorizon p s c e (normalizeInput inp).horizonEnd])
        ∧ (∀ v w, res = .failure v "No ready operations available" w →
          w = [.deadlockText]))
      (fun _ _ _ _ _ => trivial)
      (fun st res _ hne hstep => scheduleStep_inl_names hstep)
      (fun st _ hnil => by
        unfold finishRun
        cases hc : checkOverlaps st.resourceStates with
        | some v =>
          match v with
          | (rid, a, b) =>
            refine ⟨?_, ?_, ?_, ?_⟩ <;>
              (intro v w heq;
               simp only [ScheduleResult.failure.injEq] at heq;
               exact absurd heq.2.1 (by decide))
        | none =>
          obtain ⟨a, k, hd⟩ := denormalizeResult_success st.allAssignments
            (normalizeInput inp).products (normalizeInput inp).resources
            (normalizeInput inp).changeoverMatrix
          rw [hd]
          refine ⟨?_, ?_, ?_, ?_⟩ <;> (intro v w heq; simp at heq))
      _ trivial

/-- Witness for C7 at a concrete input with no eligible resource. -/
theorem C7_failure_detail_witness :
    ∃ p s c w, schedule noCapabilityInput neverDeadline =
      .failure SCHEDULER_VERSION "No eligible resources" w ∧
      w = [.opNoCapability p s c] := by
  obtain ⟨p, s, c, hw⟩ := (C7_failure_detail noCapabilityInput neverDeadline).1
    SCHEDULER_VERSION [.opNoCapability "P9" 0 "pack"] (by decide)
  exact ⟨p, s, c, _, by decide, hw⟩

/-! ### Association-list facts used by the loop invariants -/

theorem assocUpdate_map_fst {β : Type} (m : List (String × β)) (k : String)
    (f : β → β) : (assocUpdate m k f).map Prod.fst = m.map Prod.fst := by
  unfold assocUpdate
  induction m with
  | nil => rfl
  | cons e m' ih =>
    unfold updateFirstBy
    by_cases hk : (e.1 == k) = true
    · rw [if_pos hk]
      rfl
    · rw [if_neg hk]
      simp only [List.map_cons]
      rw [ih]

theorem assocUpdate_entries {β : Type} (m : List (String × β)) (k : String)
    (f : β → β) (hnod : (m.map Prod.fst).Nodup) :
    ∀ e' ∈ assocUpdate m k f,
      (e'.1 ≠ k ∧ e' ∈ m) ∨ (e'.1 = k ∧ ∃ v, (k, v) ∈ m ∧ e' = (k, f v)) := by
  unfold assocUpdate
  induction m with
  | nil =>
    intro e' he'
    cases he'
  | cons e m' ih =>
    rw [List.map_cons, List.nodup_cons] at hnod
    intro e' he'
    unfold updateFirstBy at he'
    by_cases hk : (e.1 == k) = true
    · rw [if_pos hk] at he'
      have hek : e.1 = k := by simpa using hk
      rcases List.mem_cons.mp he' with he' | he'
      · subst he'
        refine Or.inr ⟨hek, e.2, ?_, by rw [hek]⟩
        rw [← hek]
        exact List.mem_cons_self _ _
      · left
        constructor
        · intro hc
          apply hnod.1
          rw [hek, ← hc]
          exact List.mem_map_of_mem Prod.fst he'
        · exact List.mem_cons_of_mem _ he'
    · rw [if_neg hk] at he'
      have hek : e.1 ≠ k := by simpa using hk
      rcases List.mem_cons.mp he' with he' | he'
      · subst he'
        exact Or.inl ⟨hek, List.mem_cons_self _ _⟩
      · rcases ih hnod.2 e' he' with h1 | ⟨h1, v, hv, he2⟩
        · exact Or.inl ⟨h1.1, List.mem_cons_of_mem _ h1.2⟩
        · exact Or.inr ⟨h1, v, List.mem_cons_of_mem _ hv, he2⟩

theorem mem_keys_iff {β : Type} (m : List (String × β)) (k : String) :
    k ∈ m.map Prod.fst ↔ ∃ e ∈ m, e.1 = k := List.mem_map

theorem filter_append_singleton {α : Type} (p : α → Bool) (l : List α) (x : α) :
    (l ++ [x]).filter p = l.filter p ++ (if p x then [x] else []) := by
  rw [List.filter_append]
  by_cases hx : p x = true
  · simp [List.filter, hx]
  · simp only [Bool.not_eq_true] at hx
    simp [List.filter, hx]

/-! ### Consequences of a successful placement -/

theorem placeStep_mem (due : Int) :
    ∀ (l : List GapOutcome) (s0 : PlaceState) (c : Candidate),
      (l.foldl (placeStep due) s0).bestPlacement = some c →
      GapOutcome.cand c ∈ l ∨ s0.bestPlacement = some c := by
  intro l
  induction l with
  | nil =>
    intro s0 c h
    exact Or.inr h
  | cons o t ih =>
    intro s0 c h
    rw [List.foldl_cons] at h
    rcases ih (placeStep due s0 o) c h with h1 | h1
    · exact Or.inl (List.mem_cons_of_mem _ h1)
    · match o with
      | .skip => exact Or.inr h1
      | .miss rid gap needed co =>
        unfold placeStep at h1
        dsimp only at h1
        by_cases hg : s0.largestGap < gap
        · rw [if_pos hg] at h1
          exact Or.inr h1
        · rw [if_neg hg] at h1
          exact Or.inr h1
      | .cand c' =>
        unfold placeStep at h1
        dsimp only at h1
        by_cases hb : (match s0.bestProjectedTardiness, s0.earliestStop with
          | none, x => true
          | some bt, none => decide (max 0 (c'.stop - due) < bt)
          | some bt, some es =>
            decide (max 0 (c'.stop - due) < bt) ||
              (decide (max 0 (c'.stop - due) = bt) && decide (c'.stop < es))) = true
        · rw [if_pos hb] at h1
          dsimp only at h1
          rw [Option.some.injEq] at h1
          rw [← h1]
          exact Or.inl (List.mem_cons_self _ _)
        · rw [if_neg hb] at h1
          exact Or.inr h1

theorem tryPlaceOperation_cand_mem {op : SchedulableOperation}
    {eligible : List NormResource} {states : List (String × ResourceState)}
    {matrix : List (String × Int)} {placement : Candidate} {nm : Option NearMiss}
    (h : tryPlaceOperation op eligible states matrix = (some placement, nm)) :
    GapOutcome.cand placement ∈ gapOutcomes op eligible states matrix := by
  unfold tryPlaceOperation at h
  have h1 : ((gapOutcomes op eligible states matrix).foldl (placeStep op.productDue)
      { bestPlacement := none, bestProjectedTardiness := none
      , earliestStop := none, bestNear := none, largestGap := 0 }).bestPlacement =
      some placement := by
    rw [show ((gapOutcomes op eligible states matrix).foldl (placeStep op.productDue)
      { bestPlacement := none, bestProjectedTardiness := none
      , earliestStop := none, bestNear := none, largestGap := 0 }).bestPlacement =
      (some placement, nm).1 from congrArg Prod.fst h]
  rcases placeStep_mem op.productDue _ _ _ h1 with h2 | h2
  · exact h2
  · cases h2

theorem gapOutcomes_mem_spec {op : SchedulableOperation}
    {eligible : List NormResource} {states : List (String × ResourceState)}
    {matrix : List (String × Int)} {o : GapOutcome}
    (h : o ∈ gapOutcomes op eligible states matrix) :
    ∃ r ∈ eligible, ∃ w ∈ r.calendar, ¬ (w.stop ≤ op.earliestStart) ∧
      ∃ i ≤ (lookupD states r.id { lastFamily := none, assignments := [] }).assignments.length,
        evalGap op r.id w
          (lookupD states r.id { lastFamily := none, assignments := [] }).assignments
          matrix i = o := by
  unfold gapOutcomes at h
  rw [List.mem_flatMap] at h
  obtain ⟨r, hr, h⟩ := h
  rw [List.mem_flatMap] at h
  obtain ⟨w, hw, h⟩ := h
  rw [List.mem_filter] at hw
  rw [List.mem_map] at h
  obtain ⟨i, hi, heval⟩ := h
  rw [List.mem_range] at hi
  refine ⟨r, hr, w, hw.1, by simpa using hw.2, i, by omega, heval⟩

theorem evalGap_cand_resource {op : SchedulableOperation} {rid : String}
    {w : NormalizedInterval} {sorted : List InternalAssignment}
    {matrix : List (String × Int)} {i : Nat} {c : Candidate}
    (h : evalGap op rid w sorted matrix i = .cand c) : c.resource = rid := by
  unfold evalGap at h
  repeat' (first | split at h | dsimp only at h)
  all_goals (try (exact GapOutcome.noConfusion h))
  all_goals (rw [GapOutcome.cand.injEq] at h; rw [← h])

theorem tryPlaceOperation_resource {op : SchedulableOperation}
    {eligible : List NormResource} {states : List (String × ResourceState)}
    {matrix : List (String × Int)} {placement : Candidate} {nm : Option NearMiss}
    (h : tryPlaceOperation op eligible states matrix = (some placement, nm)) :
    ∃ r ∈ eligible, placement.resource = r.id := by
  obtain ⟨r, hr, w, hw, hnw, i, hi, heval⟩ :=
    gapOutcomes_mem_spec (tryPlaceOperation_cand_mem h)
  exact ⟨r, hr, evalGap_cand_resource heval⟩

/-! ### Key facts about `normalizeInput`'s resource map -/

theorem updateFirstBy_fst_preserving {β : Type} (p : String × β → Bool)
    (f : String × β → String × β) (hf : ∀ e, (f e).1 = e.1) :
    ∀ l : List (String × β),
      (updateFirstBy p f l).map Prod.fst = l.map Prod.fst := by
  intro l
  induction l with
  | nil => rfl
  | cons e t ih =>
    unfold updateFirstBy
    by_cases hp : p e = true
    · rw [if_pos hp]
      simp only [List.map_cons, hf]
    · rw [if_neg hp]
      simp only [List.map_cons, ih]

theorem updateFirstBy_mem {α : Type} (p : α → Bool) (f : α → α) :
    ∀ l : List α, ∀ e' ∈ updateFirstBy p f l, e' ∈ l ∨ ∃ e ∈ l, p e ∧ e' = f e := by
  intro l
  induction l with
  | nil =>
    intro e' he'
    cases he'
  | cons a t ih =>
    intro e' he'
    unfold updateFirstBy at he'
    by_cases hp : p a = true
    · rw [if_pos hp] at he'
      rcases List.mem_cons.mp he' with he' | he'
      · exact Or.inr ⟨a, List.mem_cons_self _ _, hp, he'⟩
      · exact Or.inl (List.mem_cons_of_mem _ he')
    · rw [if_neg hp] at he'
      rcases List.mem_cons.mp he' with he' | he'
      · exact Or.inl (he' ▸ List.mem_cons_self _ _)
      · rcases ih e' he' with h1 | ⟨e, he, hpe, hfe⟩
        · exact Or.inl (List.mem_cons_of_mem _ h1)
        · exact Or.inr ⟨e, List.mem_cons_of_mem _ he, hpe, hfe⟩

theorem assocSet_mem {β : Type} (m : List (String × β)) (k : String) (v : β) :
    ∀ e' ∈ assocSet m k v, e' ∈ m ∨ e' = (k, v) := by
  intro e' he'
  unfold assocSet at he'
  by_cases ha : m.any (fun e => e.1 == k) = true
  · rw [if_pos ha] at he'
    rcases updateFirstBy_mem _ _ m e' he' with h1 | ⟨e, _, hpe, hfe⟩
    · exact Or.inl h1
    · right
      have hek : e.1 = k := by simpa using hpe
      rw [hfe, hek]
  · rw [if_neg ha] at he'
    rcases List.mem_append.mp he' with h1 | h1
    · exact Or.inl h1
    · exact Or.inr (List.mem_singleton.mp h1)

theorem assocSet_nodup {β : Type} (m : List (String × β)) (k : String) (v : β)
    (h : (m.map Prod.fst).Nodup) : ((assocSet m k v).map Prod.fst).Nodup := by
  unfold assocSet
  by_cases ha : m.any (fun e => e.1 == k) = true
  · rw [if_pos ha, updateFirstBy_fst_preserving (fun e => e.1 == k)
      (fun e => (e.1, v)) (fun e => rfl)]
    exact h
  · rw [if_neg ha, List.map_append]
    rw [List.nodup_append]
    refine ⟨h, List.nodup_singleton k, ?_⟩
    intro s hs hk
    rw [List.mem_singleton.mp hk] at hs
    obtain ⟨e, he, hek⟩ := (mem_keys_iff m k).mp hs
    rw [List.any_eq_true] at ha
    exact ha ⟨e, he, by simpa using hek⟩

theorem normalizeInput_resources_nodup (inp : EngineInput) :
    (((normalizeInput inp).resources).map Prod.fst).Nodup := by
  unfold normalizeInput
  dsimp only
  suffices h : ∀ (rs : List RawResource) (acc : List (String × NormResource)),
      (acc.map Prod.fst).Nodup →
      ((rs.foldl (fun m r => assocSet m r.id (normalizeResource inp.horizonEnd r)) acc).map
        Prod.fst).Nodup by
    exact h inp.resources [] List.nodup_nil
  intro rs
  induction rs with
  | nil =>
    intro acc ha
    exact ha
  | cons r rs' ih =>
    intro acc ha
    exact ih _ (assocSet_nodup _ _ _ ha)

theorem normalizeInput_resources_id (inp : EngineInput) :
    ∀ e ∈ (normalizeInput inp).resources, e.2.id = e.1 := by
  unfold normalizeInput
  dsimp only
  suffices h : ∀ (rs : List RawResource) (acc : List (String × NormResource)),
      (∀ e ∈ acc, e.2.id = e.1) →
      ∀ e ∈ rs.foldl (fun m r => assocSet m r.id (normalizeResource inp.horizonEnd r)) acc,
        e.2.id = e.1 by
    exact h inp.resources [] (fun e he => absurd he (List.not_mem_nil e))
  intro rs
  induction rs with
  | nil =>
    intro acc ha
    exact ha
  | cons r rs' ih =>
    intro acc ha
    refine ih _ ?_
    intro e he
    rcases assocSet_mem _ _ _ e he with h1 | h1
    · exact ha e h1
    · rw [h1]
      rfl

theorem getEligibleResources_mem_keys {op : SchedulableOperation}
    {resources : List (String × NormResource)}
    (hid : ∀ e ∈ resources, e.2.id = e.1) :
    ∀ r ∈ getEligibleResources op resources, r.id ∈ resources.map Prod.fst := by
  intro r hr
  unfold getEligibleResources at hr
  rw [List.mem_filter] at hr
  obtain ⟨p, hp, hpr⟩ := List.mem_map.mp hr.1
  rw [← hpr, hid p hp]
  exact List.mem_map_of_mem Prod.fst hp

/-! ### From the post-run overlap validation to pairwise non-overlap -/

theorem adjacentViolation_none_chain :
    ∀ l : List InternalAssignment, adjacentViolation l = none →
      List.Chain' (fun a b : InternalAssignment => a.stop ≤ b.start) l := by
  intro l
  induction l with
  | nil =>
    intro _
    exact List.chain'_nil
  | cons a t ih =>
    intro h
    cases t with
    | nil => exact List.chain'_singleton a
    | cons b t' =>
      unfold adjacentViolation at h
      by_cases hb : b.start < a.stop
      · rw [if_pos hb] at h
        cases h
      · rw [if_neg hb] at h
        exact List.chain'_cons.mpr ⟨by omega, ih h⟩

theorem assignment_chain_pairwise :
    ∀ l : List InternalAssignment,
      List.Chain' (fun a b : InternalAssignment => a.start ≤ b.start) l →
      List.Chain' (fun a b : InternalAssignment => a.stop ≤ b.start) l →
      List.Pairwise (fun a b : InternalAssignment => a.stop ≤ b.start) l := by
  intro l
  induction l with
  | nil =>
    intro _ _
    exact List.Pairwise.nil
  | cons a t ih =>
    intro hs hm
    rw [List.chain'_cons'] at hs hm
    refine List.Pairwise.cons ?_ (ih hs.2 hm.2)
    intro b hb
    cases t with
    | nil => cases hb
    | cons c t2 =>
      have hac : a.stop ≤ c.start := hm.1 c rfl
      rcases List.mem_cons.mp hb with hb | hb
      · rw [hb]
        exact hac
      · have hcb := chain'_key_le_of_mem InternalAssignment.start t2 c hs.2 b hb
        omega

theorem pairwise_of_filter_resource (S : InternalAssignment → InternalAssignment → Prop)
    (l : List InternalAssignment)
    (h : ∀ rid, List.Pairwise S (l.filter (fun a => a.resource == rid))) :
    List.Pairwise (fun a b => a.resource = b.resource → S a b) l := by
  induction l with
  | nil => exact List.Pairwise.nil
  | cons a t ih =>
    refine List.Pairwise.cons ?_
      (ih (fun rid => List.Pairwise.sublist
        ((List.sublist_cons_self a t).filter _) (h rid)))
    intro b hb hres
    have ha := h a.resource
    rw [List.filter_cons_of_pos (by simp)] at ha
    exact (List.pairwise_cons.mp ha).1 b
      (List.mem_filter.mpr ⟨hb, by simp [hres.symm]⟩)

theorem checkOverlaps_none {resourceStates : List (String × ResourceState)}
    (h : checkOverlaps resourceStates = none) :
    ∀ e ∈ resourceStates,
      adjacentViolation (sortByKey InternalAssignment.start e.2.assignments) = none := by
  unfold checkOverlaps at h
  rw [List.findSome?_eq_none_iff] at h
  intro e he
  exact Option.map_eq_none'.mp (h e he)

/-! ### The state/log correspondence invariant of the driving loop -/

/-- Correspondence between the per-resource states and the global assignment
log: the resource-state map keeps exactly the normalized resource keys, each
resource's list is a permutation of the log entries placed on it, and every
log entry names a mapped resource. -/
def InvC3 (norm : Normalized) (st : LoopState) : Prop :=
  st.resourceStates.map Prod.fst = norm.resources.map Prod.fst ∧
  (∀ e ∈ st.resourceStates,
    List.Perm e.2.assignments
      (st.allAssignments.filter (fun a => a.resource == e.1))) ∧
  (∀ a ∈ st.allAssignments, a.resource ∈ st.resourceStates.map Prod.fst)

theorem InvC3_init (norm : Normalized) :
    InvC3 norm
      { resourceStates := norm.resources.map (fun e => (e.1, { lastFamily := none, assignments := [] }))
      , assignmentsMap := []
      , allAssignments := []
      , unscheduled := buildOperationsList norm.products
      , iteration := 0 } := by
  refine ⟨?_, ?_, ?_⟩
  · rw [List.map_map]
    rfl
  · intro e he
    obtain ⟨p, _, hpe⟩ := List.mem_map.mp he
    rw [← hpe]
    exact List.Perm.refl []
  · intro a ha
    cases ha

theorem InvC3_step {norm : Normalized} {pm : List (String × NormProduct)}
    {maxIter : Nat} {d : Nat → Bool} {st st' : LoopState}
    (hnod : (norm.resources.map Prod.fst).Nodup)
    (hid : ∀ e ∈ norm.resources, e.2.id = e.1)
    (hinv : InvC3 norm st)
    (h : scheduleStep norm pm maxIter d st = .inr st') : InvC3 norm st' := by
  obtain ⟨nextOp0, nextOp, pool1, placement, nearMiss, hsel, hrefresh, hplace, hhor, hst'⟩ :=
    scheduleStep_inr_spec h
  obtain ⟨hkeys, hperm, hres⟩ := hinv
  obtain ⟨r, hrel, hrid⟩ := tryPlaceOperation_resource hplace
  have hnodst : (st.resourceStates.map Prod.fst).Nodup := by
    rw [hkeys]
    exact hnod
  have hxres : (mkAssignment nextOp placement).resource ∈ st.resourceStates.map Prod.fst := by
    show placement.resource ∈ _
    rw [hkeys, hrid]
    exact getEligibleResources_mem_keys hid r hrel
  subst hst'
  unfold InvC3
  dsimp only
  refine ⟨?_, ?_, ?_⟩
  · rw [assocUpdate_map_fst]
    exact hkeys
  · intro e he
    rcases assocUpdate_entries st.resourceStates (mkAssignment nextOp placement).resource
        (fun s => updateResourceState s (mkAssignment nextOp placement)) hnodst e he with
      ⟨hne, hmem⟩ | ⟨_, v, hv, hev⟩
    · have hp := hperm e hmem
      rw [filter_append_singleton]
      rw [if_neg (by simp; exact fun hc => hne hc.symm)]
      rw [List.append_nil]
      exact hp
    · subst hev
      refine (sortByKey_perm _ _).trans ?_
      rw [filter_append_singleton, if_pos (by simp)]
      exact (hperm ((mkAssignment nextOp placement).resource, v) hv).append_right _
  · intro a ha
    rw [assocUpdate_map_fst]
    rcases List.mem_append.mp ha with ha | ha
    · exact hres a ha
    · rw [List.mem_singleton.mp ha]
      exact hxres

theorem InvC3_pairwise {norm : Normalized} {st : LoopState}
    (hinv : InvC3 norm st)
    (hco : checkOverlaps st.resourceStates = none) :
    List.Pairwise (fun a b : InternalAssignment =>
      a.resource = b.resource → ¬ (a.start < b.stop ∧ b.start < a.stop))
      st.allAssignments := by
  obtain ⟨hkeys, hperm, hres⟩ := hinv
  have hviol := checkOverlaps_none hco
  refine pairwise_of_filter_resource _ _ (fun rid => ?_)
  by_cases hr : ∃ e ∈ st.resourceStates, e.1 = rid
  · obtain ⟨e, he, herid⟩ := hr
    subst herid
    have hchain := adjacentViolation_none_chain _ (hviol e he)
    have hsorted := sortByKey_chain' InternalAssignment.start e.2.assignments
    have hpw := assignment_chain_pairwise _ hsorted hchain
    have hpw2 : List.Pairwise (fun a b : InternalAssignment =>
        ¬ (a.start < b.stop ∧ b.start < a.stop))
        (sortByKey InternalAssignment.start e.2.assignments) :=
      hpw.imp (fun hab hc => by omega)
    have hperm1 : List.Perm (sortByKey InternalAssignment.start e.2.assignments)
        (st.allAssignments.filter (fun a => a.resource == e.1)) :=
      (sortByKey_perm _ _).trans (hperm e he)
    exact (hperm1.pairwise_iff (fun hxy hc => hxy ⟨hc.2, hc.1⟩)).mp hpw2
  · have hfil : st.allAssignments.filter (fun a => a.resource == rid) = [] := by
      rw [List.filter_eq_nil_iff]
      intro a ha hc
      have har : a.resource = rid := by simpa using hc
      obtain ⟨e, he, he1⟩ := (mem_keys_iff _ _).mp (hres a ha)
      exact hr ⟨e, he, by rw [he1, har]⟩
    rw [hfil]
    exact List.Pairwise.nil

theorem denormalizeResult_assignments {assignments : List InternalAssignment}
    {products : List NormProduct} {resources : List (String × NormResource)}
    {matrix : List (String × Int)} {v : String} {asg : List OutAssignment} {k : KPIs}
    (h : denormalizeResult assignments products resources matrix = .success v asg k) :
    asg = (sortByKey InternalAssignment.start assignments).map
      (fun a => { product := a.productId, operation := a.operationName
                , resource := a.resource, start := a.start, stop := a.stop : OutAssignment }) := by
  unfold denormalizeResult at h
  rw [ScheduleResult.success.injEq] at h
  exact h.2.1.symm

/-- C3: in every successful schedule returned by `schedule`, for every
resource and every pair of distinct assignments placed on that resource,
their half-open intervals `[start, end)` do not overlap: `a.start < b.end`
and `b.start < a.end` never both hold. -/
theorem C3_no_overlap (inp : EngineInput) (d : Nat → Bool)
    (v : String) (asg : List OutAssignment) (k : KPIs)
    (hres : schedule inp d = .success v asg k) :
    List.Pairwise (fun a b : OutAssignment =>
      a.resource = b.resource → ¬ (a.start < b.stop ∧ b.start < a.stop)) asg := by
  unfold schedule scheduleInternal at hres
  dsimp only at hres
  by_cases hempty : (normalizeInput inp).products.length = 0
  · rw [if_pos hempty] at hres
    dsimp only at hres
    rw [ScheduleResult.success.injEq] at hres
    rw [← hres.2.1]
    exact List.Pairwise.nil
  · rw [if_neg hempty] at hres
    refine (scheduleLoop_rule (normalizeInput inp) _ _ d (InvC3 (normalizeInput inp))
      (fun res _ => res = .success v asg k →
        List.Pairwise (fun a b : OutAssignment =>
          a.resource = b.resource → ¬ (a.start < b.stop ∧ b.start < a.stop)) asg)
      ?_ ?_ ?_ _ ?_) hres
    · intro st st' hinv _ hstp
      exact InvC3_step (normalizeInput_resources_nodup inp)
        (normalizeInput_resources_id inp) hinv hstp
    · intro st res _ _ hstp heq
      obtain ⟨e, w, hf⟩ := scheduleStep_inl_failure hstp
      rw [hf] at heq
      cases heq
    · intro st hinv _ heq
      unfold finishRun at heq
      cases hco : checkOverlaps st.resourceStates with
      | some p =>
        obtain ⟨rid, ab⟩ := p
        obtain ⟨a0, b0⟩ := ab
        rw [hco] at heq
        dsimp only at heq
        cases heq
      | none =>
        rw [hco] at heq
        dsimp only at heq
        rw [denormalizeResult_assignments heq]
        exact List.pairwise_map.mpr
          (((sortByKey_perm InternalAssignment.start st.allAssignments).pairwise_iff
            (fun hxy h1 hc => hxy h1.symm ⟨hc.2, hc.1⟩)).mpr
            (InvC3_pairwise hinv hco))
    · exact InvC3_init (normalizeInput inp)

/-- Witness for C3 at `changeoverGapInput`: the hypothesis (the concrete
successful run) is discharged by evaluation. -/
theorem C3_no_overlap_witness :
    List.Pairwise (fun a b : OutAssignment =>
      a.resource = b.resource → ¬ (a.start < b.stop ∧ b.start < a.stop))
      [ { product := "P1", operation := "c2", resource := "R2", start := 0, stop := 100 }
      , { product := "P2", operation := "c1", resource := "R1", start := 0, stop := 30 }
      , { product := "P1", operation := "c1", resource := "R1", start := 100, stop := 150 } ] :=
  C3_no_overlap changeoverGapInput neverDeadline SCHEDULER_VERSION
    [ { product := "P1", operation := "c2", resource := "R2", start := 0, stop := 100 }
    , { product := "P2", operation := "c1", resource := "R1", start := 0, stop := 30 }
    , { product := "P1", operation := "c1", resource := "R1", start := 100, stop := 150 } ]
    { tardiness_minutes := 0, changeovers := 1, makespan_minutes := 150
    , utilization := [("R1", 53), ("R2", 33)], on_time_jobs := 2, total_jobs := 2 }
    (by decide)

/-! ### Membership facts for selection and placement -/

theorem foldl_pick_mem {α : Type} (c : α → α → Prop) [DecidableRel c] :
    ∀ (t : List α) (h : α),
      t.foldl (fun best op => if c op best then op else best) h ∈ h :: t := by
  intro t
  induction t with
  | nil =>
    intro h
    exact List.mem_singleton.mpr rfl
  | cons a t' ih =>
    intro h
    rw [List.foldl_cons]
    by_cases hc : c a h
    · rw [if_pos hc]
      rcases List.mem_cons.mp (ih a) with h1 | h1
      · rw [h1]
        exact List.mem_cons_of_mem _ (List.mem_cons_self _ _)
      · exact List.mem_cons_of_mem _ (List.mem_cons_of_mem _ h1)
    · rw [if_neg hc]
      rcases List.mem_cons.mp (ih h) with h1 | h1
      · rw [h1]
        exact List.mem_cons_self _ _
      · exact List.mem_cons_of_mem _ (List.mem_cons_of_mem _ h1)

theorem selectNextOperation_mem_ready {u : List SchedulableOperation}
    {am : List (String × List InternalAssignment)}
    {pm : List (String × NormProduct)} {op : SchedulableOperation}
    (h : selectNextOperation u am pm = some op) :
    op ∈ u ∧ isReady am op = true := by
  unfold selectNextOperation at h
  match hready : u.filter (isReady am) with
  | [] =>
    rw [hready] at h
    cases h
  | hd :: t =>
    rw [hready] at h
    dsimp only at h
    rw [Option.some.injEq] at h
    have hmem : op ∈ hd :: t := by
      rw [← h]
      exact foldl_pick_mem _ t hd
    rw [← hready] at hmem
    exact ⟨(List.mem_filter.mp hmem).1, (List.mem_filter.mp hmem).2⟩

theorem lookupD_cases {β : Type} (m : List (String × β)) (k : String) (d : β) :
    lookupD m k d = d ∨ ∃ e ∈ m, e.1 = k ∧ lookupD m k d = e.2 := by
  rcases hf : m.find? (fun e => e.1 == k) with _ | e
  · left
    unfold lookupD
    rw [hf]
  · right
    refine ⟨e, List.mem_of_find?_eq_some hf, ?_, ?_⟩
    · have := List.find?_some hf
      simpa using this
    · unfold lookupD
      rw [hf]

theorem getChangeoverTime_nonneg {lastFamily : Option String} {nextFamily : String}
    {matrix : List (String × Int)} (hm : ∀ e ∈ matrix, 0 ≤ e.2) :
    0 ≤ getChangeoverTime lastFamily nextFamily matrix := by
  unfold getChangeoverTime
  match lastFamily with
  | none => exact le_refl 0
  | some f =>
    dsimp only
    by_cases hf : f = ""
    · rw [if_pos hf]
    · rw [if_neg hf]
      rcases lookupD_cases matrix (f ++ "->" ++ nextFamily) 0 with h | ⟨e, he, _, h⟩
      · rw [h]
      · rw [h]
        exact hm e he

/-! ### A let-free core form of `evalGap` -/

/-- The body of `evalGap` with the prev/next lookups abstracted; equal to
`evalGap` by definitional unfolding (`evalGap_eq_core`). -/
def evalGapCore (operation : SchedulableOperation) (rid : String)
    (w : NormalizedInterval) (matrix : List (String × Int))
    (prevAssignment nextAssignment : Option InternalAssignment) : GapOutcome :=
  let gapStart := max operation.earliestStart
    (match prevAssignment with
     | some p => p.stop
     | none => w.start)
  let gapEnd := min w.stop
    (match nextAssignment with
     | some n => n.start
     | none => w.stop)
  if gapEnd ≤ gapStart then .skip
  else
    let prevFamily := prevAssignment.map InternalAssignment.productFamily
    let changeoverTime := getChangeoverTime prevFamily operation.productFamily matrix
    let start := gapStart + changeoverTime
    let stop := start + operation.duration
    if gapStart ≤ start ∧ stop ≤ gapEnd then
      .cand { resource := rid, start := start, stop := stop }
    else
      .miss rid (gapEnd - gapStart) (changeoverTime + operation.duration) changeoverTime

theorem evalGap_eq_core (operation : SchedulableOperation) (rid : String)
    (w : NormalizedInterval) (sorted : List InternalAssignment)
    (matrix : List (String × Int)) (i : Nat) :
    evalGap operation rid w sorted matrix i =
      evalGapCore operation rid w matrix
        (if i = 0 then none else sorted.get? (i - 1)) (sorted.get? i) := rfl

/-- The gap's lower bound contributed by the previous assignment (or the
window start) and its upper bound from the next assignment (or the window
end), as `evalGap` computes them. -/
def prevBound (w : NormalizedInterval) : Option InternalAssignment → Int
  | some p => p.stop
  | none => w.start

def nextBound (w : NormalizedInterval) : Option InternalAssignment → Int
  | some n => n.start
  | none => w.stop

theorem evalGapCore_cand_spec {op : SchedulableOperation} {rid : String}
    {w : NormalizedInterval} {matrix : List (String × Int)}
    {prev next : Option InternalAssignment} {c : Candidate}
    (h : evalGapCore op rid w matrix prev next = .cand c) :
    c = { resource := rid
        , start := max op.earliestStart (prevBound w prev) +
            getChangeoverTime (prev.map InternalAssignment.productFamily)
              op.productFamily matrix
        , stop := max op.earliestStart (prevBound w prev) +
            getChangeoverTime (prev.map InternalAssignment.productFamily)
              op.productFamily matrix + op.duration } ∧
      c.stop ≤ min w.stop (nextBound w next) := by
  rcases prev with _ | p
  all_goals rcases next with _ | n
  all_goals
    (unfold evalGapCore at h
     dsimp only [prevBound, nextBound, Option.map] at h ⊢
     split at h
     · exact GapOutcome.noConfusion h
     · split at h
       · rename_i hcond
         rw [GapOutcome.cand.injEq] at h
         refine ⟨h.symm, ?_⟩
         rw [← h]
         exact hcond.2
       · exact GapOutcome.noConfusion h)

/-! ### Bounds invariant: assignments stay inside `[0, horizonEnd]` -/

theorem spliceOutFirst_mem {α : Type} (p : α → Bool) (l : List α) :
    ∀ x ∈ spliceOutFirst p l, x ∈ l := by
  unfold spliceOutFirst
  intro x hx
  match hidx : l.findIdx? p with
  | some i =>
    rw [hidx] at hx
    exact List.mem_of_mem_eraseIdx hx
  | none =>
    rw [hidx] at hx
    exact List.dropLast_subset l hx

theorem buildOperationsList_bounds (products : List NormProduct)
    (hdur : ∀ p ∈ products, ∀ o ∈ p.route, 0 < o.duration_minutes) :
    ∀ o ∈ buildOperationsList products, o.earliestStart = 0 ∧ 0 < o.duration := by
  intro o ho
  unfold buildOperationsList at ho
  rw [List.mem_flatMap] at ho
  obtain ⟨p, hp, ho⟩ := ho
  unfold productOperations at ho
  rw [List.mem_map] at ho
  obtain ⟨i, hi, ho⟩ := ho
  rw [List.mem_range] at hi
  obtain ⟨r, hr⟩ : ∃ r, p.route.get? i = some r := ⟨_, List.get?_eq_get hi⟩
  rw [← ho]
  refine ⟨rfl, ?_⟩
  dsimp only
  rw [hr]
  exact hdur p hp r (List.get?_mem hr)

theorem tryPlaceOperation_start_bound {op : SchedulableOperation}
    {eligible : List NormResource} {states : List (String × ResourceState)}
    {matrix : List (String × Int)} {placement : Candidate} {nm : Option NearMiss}
    (hm : ∀ e ∈ matrix, 0 ≤ e.2)
    (h : tryPlaceOperation op eligible states matrix = (some placement, nm)) :
    op.earliestStart ≤ placement.start ∧
      placement.stop = placement.start + op.duration := by
  obtain ⟨r, hr, w, hw, hnw, i, hi, heval⟩ :=
    gapOutcomes_mem_spec (tryPlaceOperation_cand_mem h)
  rw [evalGap_eq_core] at heval
  obtain ⟨hc, hcend⟩ := evalGapCore_cand_spec heval
  constructor
  · rw [hc]
    exact le_trans (le_max_left _ _)
      (le_add_of_nonneg_right (getChangeoverTime_nonneg hm))
  · rw [hc]

/-- Bounds invariant: every logged assignment lies in `[0, horizonEnd)` with
positive length, every pool operation has a nonnegative earliest start and a
positive duration, and the per-product map only holds bounded assignments. -/
def InvC8 (norm : Normalized) (st : LoopState) : Prop :=
  (∀ a ∈ st.allAssignments,
    0 ≤ a.start ∧ a.start < a.stop ∧ a.stop ≤ norm.horizonEnd) ∧
  (∀ o ∈ st.unscheduled, 0 ≤ o.earliestStart ∧ 0 < o.duration) ∧
  (∀ e ∈ st.assignmentsMap, ∀ a ∈ e.2,
    0 ≤ a.start ∧ a.start < a.stop ∧ a.stop ≤ norm.horizonEnd)

theorem InvC8_init (norm : Normalized)
    (hdur : ∀ p ∈ norm.products, ∀ o ∈ p.route, 0 < o.duration_minutes) :
    InvC8 norm
      { resourceStates := norm.resources.map (fun e => (e.1, { lastFamily := none, assignments := [] }))
      , assignmentsMap := []
      , allAssignments := []
      , unscheduled := buildOperationsList norm.products
      , iteration := 0 } := by
  refine ⟨?_, ?_, ?_⟩
  · intro a ha
    cases ha
  · intro o ho
    obtain ⟨h0, hd⟩ := buildOperationsList_bounds norm.products hdur o ho
    rw [h0]
    exact ⟨le_refl 0, hd⟩
  · intro e he
    cases he

theorem InvC8_step {norm : Normalized} {pm : List (String × NormProduct)}
    {maxIter : Nat} {d : Nat → Bool} {st st' : LoopState}
    (hm : ∀ e ∈ norm.changeoverMatrix, 0 ≤ e.2)
    (hinv : InvC8 norm st)
    (h : scheduleStep norm pm maxIter d st = .inr st') : InvC8 norm st' := by
  obtain ⟨nextOp0, nextOp, pool1, placement, nearMiss, hsel, hrefresh, hplace, hhor, hst'⟩ :=
    scheduleStep_inr_spec h
  obtain ⟨hall, hpool, hmap⟩ := hinv
  have hmem0 := (selectNextOperation_mem_ready hsel).1
  have hop0 : 0 ≤ nextOp0.earliestStart ∧ 0 < nextOp0.duration := hpool nextOp0 hmem0
  have hpriorstop : ∀ (pid : String) (pred : InternalAssignment → Bool)
      (prior : InternalAssignment),
      (lookupD st.assignmentsMap pid []).find? pred = some prior → 0 ≤ prior.stop := by
    intro pid pred prior hfind
    have hfmem := List.mem_of_find?_eq_some hfind
    rcases lookupD_cases st.assignmentsMap pid [] with hl | ⟨e, he, _, hl⟩
    · rw [hl] at hfmem
      cases hfmem
    · rw [hl] at hfmem
      have := hmap e he prior hfmem
      omega
  have hnext : 0 ≤ nextOp.earliestStart ∧ 0 < nextOp.duration := by
    rcases hrefresh with ⟨_, heq, _⟩ | ⟨prior, _, hfind, hset, _⟩
    · rw [heq]
      exact hop0
    · rw [hset]
      exact ⟨hpriorstop _ _ _ hfind, hop0.2⟩
  obtain ⟨hps, hpstop⟩ := tryPlaceOperation_start_bound hm hplace
  have hx : 0 ≤ placement.start ∧ placement.start < placement.stop ∧
      placement.stop ≤ norm.horizonEnd := by
    refine ⟨by omega, by omega, by omega⟩
  have hpool1 : ∀ o ∈ pool1, 0 ≤ o.earliestStart ∧ 0 < o.duration := by
    rcases hrefresh with ⟨_, _, hp1⟩ | ⟨prior, _, hfind, _, hp1⟩
    · rw [hp1]
      exact hpool
    · rw [hp1]
      intro o ho
      rcases updateFirstBy_mem _ _ _ o ho with h1 | ⟨o0, ho0, _, hfo⟩
      · exact hpool o h1
      · rw [hfo]
        exact ⟨hpriorstop _ _ _ hfind, (hpool o0 ho0).2⟩
  subst hst'
  unfold InvC8
  dsimp only
  refine ⟨?_, ?_, ?_⟩
  · intro a ha
    rcases List.mem_append.mp ha with ha | ha
    · exact hall a ha
    · rw [List.mem_singleton.mp ha]
      exact hx
  · intro o ho
    have ho2 := spliceOutFirst_mem _ _ o ho
    rcases updateFirstBy_mem _ _ _ o ho2 with h1 | ⟨o0, ho0, _, hfo⟩
    · exact hpool1 o h1
    · rw [hfo]
      refine ⟨le_trans (hpool1 o0 ho0).1 (le_max_left _ _), (hpool1 o0 ho0).2⟩
  · intro e he
    rcases assocSet_mem _ _ _ e he with h1 | h1
    · exact hmap e h1
    · rw [h1]
      intro a ha
      rcases List.mem_append.mp ha with ha | ha
      · rcases lookupD_cases st.assignmentsMap nextOp.productId [] with hl | ⟨e2, he2, _, hl⟩
        · rw [hl] at ha
          cases ha
        · rw [hl] at ha
          exact hmap e2 he2 a ha
      · rw [List.mem_singleton.mp ha]
        exact hx

/-- C8: in every successful schedule (for inputs satisfying the schema:
route durations positive, changeover minutes nonnegative), every assignment
satisfies `0 <= start` and `end <= horizon_length`, where `horizon_length`
is the minute length of the scheduling horizon (`horizonEnd` here, since
all instants are minute offsets from `horizon.start`). -/
theorem C8_horizon_containment (inp : EngineInput) (d : Nat → Bool)
    (hm : ∀ e ∈ inp.changeoverMatrix, 0 ≤ e.2)
    (hdur : ∀ p ∈ inp.products, ∀ o ∈ p.route, 0 < o.duration_minutes)
    (v : String) (asg : List OutAssignment) (k : KPIs)
    (hres : schedule inp d = .success v asg k) :
    ∀ a ∈ asg, 0 ≤ a.start ∧ a.stop ≤ inp.horizonEnd := by
  unfold schedule scheduleInternal at hres
  dsimp only at hres
  by_cases hempty : (normalizeInput inp).products.length = 0
  · rw [if_pos hempty] at hres
    dsimp only at hres
    rw [ScheduleResult.success.injEq] at hres
    rw [← hres.2.1]
    intro a ha
    cases ha
  · rw [if_neg hempty] at hres
    refine (scheduleLoop_rule (normalizeInput inp) _ _ d (InvC8 (normalizeInput inp))
      (fun res _ => res = .success v asg k →
        ∀ a ∈ asg, 0 ≤ a.start ∧ a.stop ≤ inp.horizonEnd)
      ?_ ?_ ?_ _ ?_) hres
    · intro st st' hinv _ hstp
      exact InvC8_step hm hinv hstp
    · intro st res _ _ hstp heq
      obtain ⟨e, w, hf⟩ := scheduleStep_inl_failure hstp
      rw [hf] at heq
      cases heq
    · intro st hinv _ heq
      unfold finishRun at heq
      cases hco : checkOverlaps st.resourceStates with
      | some p =>
        obtain ⟨rid, ab⟩ := p
        obtain ⟨a0, b0⟩ := ab
        rw [hco] at heq
        dsimp only at heq
        cases heq
      | none =>
        rw [hco] at heq
        dsimp only at heq
        rw [denormalizeResult_assignments heq]
        intro a ha
        obtain ⟨a0, ha0, haeq⟩ := List.mem_map.mp ha
        have ha0mem : a0 ∈ st.allAssignments :=
          (sortByKey_perm InternalAssignment.start st.allAssignments).subset ha0
        have hb := hinv.1 a0 ha0mem
        rw [← haeq]
        exact ⟨hb.1, hb.2.2⟩
    · exact InvC8_init (normalizeInput inp) hdur

/-- Witness for C8 at `changeoverGapInput`: all hypotheses (the schema
conditions and the concrete successful run) are discharged by evaluation,
and the containment is instantiated at the `P2` assignment. -/
theorem C8_horizon_containment_witness :
    0 ≤ ({ product := "P2", operation := "c1", resource := "R1", start := 0, stop := 30 }
      : OutAssignment).start ∧
    ({ product := "P2", operation := "c1", resource := "R1", start := 0, stop := 30 }
      : OutAssignment).stop ≤ changeoverGapInput.horizonEnd :=
  C8_horizon_containment changeoverGapInput neverDeadline (by decide) (by decide)
    SCHEDULER_VERSION
    [ { product := "P1", operation := "c2", resource := "R2", start := 0, stop := 100 }
    , { product := "P2", operation := "c1", resource := "R1", start := 0, stop := 30 }
    , { product := "P1", operation := "c1", resource := "R1", start := 100, stop := 150 } ]
    { tardiness_minutes := 0, changeovers := 1, makespan_minutes := 150
    , utilization := [("R1", 53), ("R2", 33)], on_time_jobs := 2, total_jobs := 2 }
    (by decide)
    { product := "P2", operation := "c1", resource := "R1", start := 0, stop := 30 }
    (by decide)

/-! ### Sorted lists with strictly increasing keys are permutation-unique -/

theorem chain'_key_lt_of_mem {α : Type} (key : α → Int) :
    ∀ (t : List α) (a : α), List.Chain' (fun a b => key a < key b) (a :: t) →
      ∀ b ∈ t, key a < key b := by
  intro t
  induction t with
  | nil =>
    intro a _ b hb
    cases hb
  | cons c t2 ih =>
    intro a h b hb
    rw [List.chain'_cons] at h
    rcases List.mem_cons.mp hb with hb | hb
    · rw [hb]
      exact h.1
    · exact lt_trans h.1 (ih c h.2 b hb)

theorem strictSorted_perm_eq {α : Type} (key : α → Int) :
    ∀ (l1 l2 : List α), List.Perm l1 l2 →
      List.Chain' (fun a b => key a ≤ key b) l1 →
      List.Chain' (fun a b => key a < key b) l2 →
      l1 = l2 := by
  intro l1
  induction l1 with
  | nil =>
    intro l2 hp _ _
    exact hp.nil_eq
  | cons a t ih =>
    intro l2 hp h1 h2
    cases l2 with
    | nil => exact absurd (hp.symm.nil_eq) (by simp)
    | cons b t2 =>
      have hab : a = b := by
        by_contra hne
        have ha2 : a ∈ b :: t2 := hp.subset (List.mem_cons_self _ _)
        have hb1 : b ∈ a :: t := hp.symm.subset (List.mem_cons_self _ _)
        have ha2' : a ∈ t2 := by
          rcases List.mem_cons.mp ha2 with h | h
          · exact absurd h hne
          · exact h
        have hb1' : b ∈ t := by
          rcases List.mem_cons.mp hb1 with h | h
          · exact absurd h.symm hne
          · exact h
        have h3 := chain'_key_lt_of_mem key t2 b h2 a ha2'
        have h4 := chain'_key_le_of_mem key t a h1 b hb1'
        omega
      subst hab
      have hp' : List.Perm t t2 := (List.perm_cons a).mp hp
      rw [ih t2 hp' ((List.chain'_cons'.mp h1).2) ((List.chain'_cons'.mp h2).2)]

theorem gap_chain_strict (l : List InternalAssignment)
    (hpos : ∀ a ∈ l, a.start < a.stop)
    (h : List.Chain' (fun a b => a.stop ≤ b.start) l) :
    List.Chain' (fun a b => a.start < b.start) l := by
  induction l with
  | nil => exact List.chain'_nil
  | cons a t ih =>
    rw [List.chain'_cons'] at h ⊢
    refine ⟨?_, ih (fun x hx => hpos x (List.mem_cons_of_mem _ hx)) h.2⟩
    intro y hy
    have h1 := h.1 y hy
    have h2 := hpos a (List.mem_cons_self _ _)
    omega

theorem gap_chain_le (l : List InternalAssignment)
    (hpos : ∀ a ∈ l, a.start < a.stop)
    (h : List.Chain' (fun a b => a.stop ≤ b.start) l) :
    List.Chain' (fun a b => a.start ≤ b.start) l :=
  (gap_chain_strict l hpos h).imp (fun a b hab => le_of_lt hab)

/-- The re-sort performed by `updateResourceState` on a gap-sorted list with
the new assignment fitting strictly between positions `i-1` and `i` is
exactly the insertion at position `i`. -/
theorem sortByKey_insert_at (l : List InternalAssignment)
    (x : InternalAssignment) (i : Nat) (hi : i ≤ l.length)
    (hpos : ∀ a ∈ l, a.start < a.stop) (hx : x.start < x.stop)
    (hchain : List.Chain' (fun a b => a.stop ≤ b.start) l)
    (hprev : ∀ p, l.get? (i - 1) = some p → i ≠ 0 → p.stop ≤ x.start)
    (hnext : ∀ n, l.get? i = some n → x.stop ≤ n.start) :
    sortByKey InternalAssignment.start (l ++ [x]) =
      l.take i ++ x :: l.drop i := by
  have hposins : ∀ a ∈ l.take i ++ x :: l.drop i, a.start < a.stop := by
    intro a ha
    rcases List.mem_append.mp ha with ha | ha
    · exact hpos a (List.mem_of_mem_take ha)
    · rcases List.mem_cons.mp ha with ha | ha
      · rw [ha]
        exact hx
      · exact hpos a (List.mem_of_mem_drop ha)
  have hchainins : List.Chain' (fun a b => a.stop ≤ b.start)
      (l.take i ++ x :: l.drop i) := by
    rw [List.chain'_append]
    refine ⟨hchain.take i, ?_, ?_⟩
    · rw [List.chain'_cons']
      refine ⟨?_, hchain.drop i⟩
      intro y hy
      refine hnext y ?_
      rw [List.get?_eq_getElem?, ← List.head?_drop]
      exact hy
    · intro p hp y hy
      rw [List.head?_cons, Option.mem_def, Option.some.injEq] at hy
      subst hy
      rcases Nat.eq_zero_or_pos i with hi0 | hi0
      · rw [hi0] at hp
        cases hp
      · refine hprev p ?_ (by omega)
        rw [Option.mem_def, List.getLast?_eq_getElem?] at hp
        rw [List.length_take] at hp
        have hlen : min i l.length = i := by omega
        rw [hlen] at hp
        rw [List.getElem?_take_of_lt (by omega)] at hp
        rw [List.get?_eq_getElem?]
        exact hp
  refine strictSorted_perm_eq InternalAssignment.start _ _ ?_ ?_ ?_
  · refine (sortByKey_perm _ _).trans ?_
    have h1 : List.Perm (l ++ [x]) (l.take i ++ (l.drop i ++ [x])) := by
      rw [← List.append_assoc, List.take_append_drop]
    exact h1.trans (List.Perm.append_left _ (List.perm_append_singleton x _))
  · exact sortByKey_chain' _ _
  · exact gap_chain_strict _ hposins hchainins

/-! ### Association lookups under distinct keys; splice decomposition -/

theorem lookupD_eq_of_mem_nodup {β : Type} {m : List (String × β)} {k : String}
    {v : β} (d : β) (hnod : (m.map Prod.fst).Nodup) (hmem : (k, v) ∈ m) :
    lookupD m k d = v := by
  induction m with
  | nil => cases hmem
  | cons e t ih =>
    rw [List.map_cons, List.nodup_cons] at hnod
    rcases List.mem_cons.mp hmem with h | h
    · rw [← h]
      unfold lookupD
      simp [List.find?_cons]
    · have hk : (e.1 == k) = false := by
        simp only [beq_eq_false_iff_ne, ne_eq]
        intro hc
        apply hnod.1
        rw [hc]
        exact List.mem_map_of_mem Prod.fst h
      unfold lookupD
      simp only [List.find?_cons, hk]
      exact ih hnod.2 h

theorem lookupD_eq_default_of_not_mem {β : Type} {m : List (String × β)}
    {k : String} (d : β) (h : k ∉ m.map Prod.fst) : lookupD m k d = d := by
  induction m with
  | nil => rfl
  | cons e t ih =>
    rw [List.map_cons] at h
    have hk : (e.1 == k) = false := by
      simp only [beq_eq_false_iff_ne, ne_eq]
      intro hc
      exact h (by rw [hc]; exact List.mem_cons_self _ _)
    unfold lookupD
    simp only [List.find?_cons, hk]
    exact ih (fun hc => h (List.mem_cons_of_mem _ hc))

theorem spliceOutFirst_decomp {α : Type} (p : α → Bool) :
    ∀ (l : List α) (m : α), m ∈ l → p m = true →
      ∃ l1 m' l2, l = l1 ++ m' :: l2 ∧ p m' = true ∧ (∀ y ∈ l1, p y = false) ∧
        spliceOutFirst p l = l1 ++ l2 := by
  intro l
  induction l with
  | nil =>
    intro m hm
    cases hm
  | cons a t ih =>
    intro m hm hpm
    by_cases hpa : p a = true
    · refine ⟨[], a, t, rfl, hpa, ?_, ?_⟩
      · intro y hy
        cases hy
      · unfold spliceOutFirst
        rw [List.findIdx?_cons, if_pos hpa]
        rfl
    · have hm' : m ∈ t := by
        rcases List.mem_cons.mp hm with h | h
        · rw [h] at hpm
          exact absurd hpm hpa
        · exact h
      obtain ⟨l1, m', l2, hl, hpm', hl1, hsp⟩ := ih m hm' hpm
      refine ⟨a :: l1, m', l2, by rw [List.cons_append, hl], hpm', ?_, ?_⟩
      · intro y hy
        rcases List.mem_cons.mp hy with h | h
        · rw [h]
          exact Bool.not_eq_true _ ▸ (by simpa using hpa)
        · exact hl1 y h
      · unfold spliceOutFirst at hsp ⊢
        rw [List.findIdx?_cons, if_neg hpa, List.findIdx?_succ]
        cases hidx : List.findIdx? p t with
        | none =>
          rw [List.findIdx?_eq_none_iff] at hidx
          rw [hl] at hidx
          have := hidx m' (by
            rw [List.mem_append]
            exact Or.inr (List.mem_cons_self _ _))
          rw [hpm'] at this
          cases this
        | some i =>
          rw [hidx] at hsp
          dsimp only at hsp
          dsimp only [Option.map]
          rw [List.eraseIdx_cons_succ, hsp]
          rfl

/-! ### Placement order on the assignment log -/

/-- `a` was appended to the log strictly before `b`. -/
def placedBefore (a b : InternalAssignment) (log : List InternalAssignment) : Prop :=
  ∃ i j, i < j ∧ log.get? i = some a ∧ log.get? j = some b

theorem placedBefore_append {a b x : InternalAssignment}
    {log : List InternalAssignment} (h : placedBefore a b log) :
    placedBefore a b (log ++ [x]) := by
  obtain ⟨i, j, hij, hi, hj⟩ := h
  have hjlen : j < log.length := by
    by_contra hc
    rw [(List.get?_eq_none).mpr (by omega)] at hj
    cases hj
  refine ⟨i, j, hij, ?_, ?_⟩
  · rw [List.get?_eq_getElem?, List.getElem?_append_left (by omega), ← List.get?_eq_getElem?]
    exact hi
  · rw [List.get?_eq_getElem?, List.getElem?_append_left hjlen, ← List.get?_eq_getElem?]
    exact hj

theorem placedBefore_new {a x : InternalAssignment}
    {log : List InternalAssignment} (ha : a ∈ log) :
    placedBefore a x (log ++ [x]) := by
  obtain ⟨i, hi⟩ := List.mem_iff_get?.mp ha
  have hlen : i < log.length := by
    by_contra hc
    rw [(List.get?_eq_none).mpr (by omega)] at hi
    cases hi
  refine ⟨i, log.length, hlen, ?_, List.get?_concat_length log x⟩
  rw [List.get?_eq_getElem?, List.getElem?_append_left hlen, ← List.get?_eq_getElem?]
  exact hi

theorem placedBefore_shrink {a b x : InternalAssignment}
    {log : List InternalAssignment} (hb : b ≠ x)
    (h : placedBefore a b (log ++ [x])) : placedBefore a b log := by
  obtain ⟨i, j, hij, hi, hj⟩ := h
  have hjlen : j < log.length := by
    by_contra hc
    have hj2 : j < log.length + 1 := by
      by_contra hc2
      rw [(List.get?_eq_none).mpr (by simp; omega)] at hj
      cases hj
    have hjeq : j = log.length := by omega
    rw [hjeq, List.get?_concat_length] at hj
    exact hb (Option.some.injEq _ _ ▸ hj.symm ▸ rfl)
  refine ⟨i, j, hij, ?_, ?_⟩
  · rw [List.get?_eq_getElem?, List.getElem?_append_left (by omega : i < log.length),
      ← List.get?_eq_getElem?] at hi
    exact hi
  · rw [List.get?_eq_getElem?, List.getElem?_append_left hjlen,
      ← List.get?_eq_getElem?] at hj
    exact hj

theorem not_placedBefore_new {x b : InternalAssignment}
    {log : List InternalAssignment} (hx : x ∉ log) (hb : b ∈ log) :
    ¬ placedBefore x b (log ++ [x]) := by
  rintro ⟨i, j, hij, hi, hj⟩
  by_cases hlt : i < log.length
  · rw [List.get?_eq_getElem?, List.getElem?_append_left hlt,
      ← List.get?_eq_getElem?] at hi
    exact hx (List.get?_mem hi)
  · have hjlen : j < log.length + 1 := by
      by_contra hc
      rw [(List.get?_eq_none).mpr (by simp; omega)] at hj
      cases hj
    have hjeq : j = log.length := by omega
    rw [hjeq, List.get?_concat_length] at hj
    injection hj with h2
    rw [← h2] at hb
    exact hx hb

/-! ### Further helpers for the main loop invariant -/

theorem chain'_imp_mem {α : Type} {R S : α → α → Prop} :
    ∀ l : List α, (∀ a ∈ l, ∀ b ∈ l, R a b → S a b) → List.Chain' R l →
      List.Chain' S l := by
  intro l
  induction l with
  | nil =>
    intro _ _
    exact List.chain'_nil
  | cons a t ih =>
    intro him h
    rw [List.chain'_cons'] at h ⊢
    refine ⟨?_, ih (fun y hy z hz => him y (List.mem_cons_of_mem _ hy)
      z (List.mem_cons_of_mem _ hz)) h.2⟩
    intro y hy
    refine him a (List.mem_cons_self _ _) y ?_ (h.1 y hy)
    cases t with
    | nil => cases hy
    | cons c t2 =>
      rw [List.head?_cons, Option.mem_def, Option.some.injEq] at hy
      rw [← hy]
      exact List.mem_cons_of_mem _ (List.mem_cons_self _ _)

theorem updateFirstBy_map_key {α β : Type} (p : α → Bool) (f : α → α)
    (key : α → β) (hf : ∀ a, key (f a) = key a) :
    ∀ l : List α, (updateFirstBy p f l).map key = l.map key := by
  intro l
  induction l with
  | nil => rfl
  | cons a t ih =>
    unfold updateFirstBy
    by_cases hp : p a = true
    · rw [if_pos hp]
      simp only [List.map_cons, hf]
    · rw [if_neg hp]
      simp only [List.map_cons, ih]

theorem assocSet_eq {β : Type} (m : List (String × β)) (k : String) (v : β) :
    assocSet m k v =
      if m.any (fun e => e.1 == k) then assocUpdate m k (fun _ => v)
      else m ++ [(k, v)] := rfl

theorem assocSet_keys_incl {β : Type} (m : List (String × β)) (k : String)
    (v : β) (k' : String) (h : k' ∈ m.map Prod.fst ∨ k' = k) :
    k' ∈ (assocSet m k v).map Prod.fst := by
  unfold assocSet
  by_cases ha : m.any (fun e => e.1 == k) = true
  · rw [if_pos ha, updateFirstBy_map_key (fun e => e.1 == k)
      (fun e => (e.1, v)) Prod.fst (fun e => rfl)]
    rcases h with h | h
    · exact h
    · subst h
      rw [List.any_eq_true] at ha
      obtain ⟨e, he, hek⟩ := ha
      rw [mem_keys_iff]
      exact ⟨e, he, by simpa using hek⟩
  · rw [if_neg ha, List.map_append]
    rcases h with h | h
    · exact List.mem_append_left _ h
    · subst h
      exact List.mem_append_right _ (by simp)

/-- The per-assignment and per-operation identity keys (product, step). -/
def asgKey (a : InternalAssignment) : String × Nat := (a.productId, a.stepIndex)

def opKey (o : SchedulableOperation) : String × Nat := (o.productId, o.stepIndex)

theorem buildOperationsList_keys_nodup (products : List NormProduct)
    (hids : (products.map NormProduct.id).Nodup) :
    ((buildOperationsList products).map opKey).Nodup := by
  unfold buildOperationsList
  rw [List.map_flatMap]
  rw [List.nodup_flatMap]
  constructor
  · intro p _
    unfold productOperations
    rw [List.map_map]
    have : (opKey ∘ fun stepIndex =>
        ({ productId := p.id, productFamily := p.family, stepIndex := stepIndex
         , capability := ((p.route.get? stepIndex).getD ⟨"", 0⟩).capability
         , duration := ((p.route.get? stepIndex).getD ⟨"", 0⟩).duration_minutes
         , productDue := p.due, earliestStart := 0 } : SchedulableOperation)) =
        (fun i => (p.id, i)) := by
      funext i
      rfl
    rw [this]
    exact (List.nodup_range _).map (fun i j hij => by
      injection hij)
  · have hpw : List.Pairwise (fun a b => a.id ≠ b.id) products := by
      have h2 : List.Pairwise (fun a b : String => a ≠ b) (products.map NormProduct.id) :=
        hids
      exact List.pairwise_map.mp h2
    refine hpw.imp ?_
    intro p q hpq
    intro key hkp hkq
    dsimp only at hkp hkq
    unfold productOperations at hkp hkq
    rw [List.map_map, List.mem_map] at hkp hkq
    obtain ⟨i, _, hkp⟩ := hkp
    obtain ⟨j, _, hkq⟩ := hkq
    apply hpq
    have : key.1 = p.id := by rw [← hkp]; rfl
    have h2 : key.1 = q.id := by rw [← hkq]; rfl
    rw [← this, h2]

/-- The gap chain survives insertion of `x` at position `i` when `x` fits
strictly between its neighbours. -/
theorem insert_gap_chain (l : List InternalAssignment)
    (x : InternalAssignment) (i : Nat) (hi : i ≤ l.length)
    (hchain : List.Chain' (fun a b => a.stop ≤ b.start) l)
    (hprev : ∀ p, l.get? (i - 1) = some p → i ≠ 0 → p.stop ≤ x.start)
    (hnext : ∀ n, l.get? i = some n → x.stop ≤ n.start) :
    List.Chain' (fun a b => a.stop ≤ b.start) (l.take i ++ x :: l.drop i) := by
  rw [List.chain'_append]
  refine ⟨hchain.take i, ?_, ?_⟩
  · rw [List.chain'_cons']
    refine ⟨?_, hchain.drop i⟩
    intro y hy
    refine hnext y ?_
    rw [List.get?_eq_getElem?, ← List.head?_drop]
    exact hy
  · intro p hp y hy
    rw [List.head?_cons, Option.mem_def, Option.some.injEq] at hy
    subst hy
    rcases Nat.eq_zero_or_pos i with hi0 | hi0
    · rw [hi0] at hp
      cases hp
    · refine hprev p ?_ (by omega)
      rw [Option.mem_def, List.getLast?_eq_getElem?] at hp
      rw [List.length_take] at hp
      have hlen : min i l.length = i := by omega
      rw [hlen] at hp
      rw [List.getElem?_take_of_lt (by omega)] at hp
      rw [List.get?_eq_getElem?]
      exact hp

/-- Full placement decomposition: a successful `tryPlaceOperation` picked an
eligible resource with a mapped state and an insertion position whose
neighbours respect the changeover-padded gap bounds. -/
theorem tryPlaceOperation_insert_spec {op : SchedulableOperation}
    {eligible : List NormResource} {states : List (String × ResourceState)}
    {matrix : List (String × Int)} {placement : Candidate} {nm : Option NearMiss}
    (hnodst : (states.map Prod.fst).Nodup)
    (hm : ∀ e ∈ matrix, 0 ≤ e.2)
    (hrid : ∀ r' ∈ eligible, r'.id ∈ states.map Prod.fst)
    (h : tryPlaceOperation op eligible states matrix = (some placement, nm)) :
    ∃ r v i, r ∈ eligible ∧ placement.resource = r.id ∧ (r.id, v) ∈ states ∧
      i ≤ v.assignments.length ∧
      op.earliestStart ≤ placement.start ∧
      placement.stop = placement.start + op.duration ∧
      (∀ p, v.assignments.get? (i - 1) = some p → i ≠ 0 →
        p.stop + getChangeoverTime (some p.productFamily) op.productFamily matrix
          ≤ placement.start) ∧
      (∀ n, v.assignments.get? i = some n → placement.stop ≤ n.start) := by
  obtain ⟨r, hr, w, hw, hnw, i, hi, heval⟩ :=
    gapOutcomes_mem_spec (tryPlaceOperation_cand_mem h)
  obtain ⟨e, he, hek⟩ := (mem_keys_iff states r.id).mp (hrid r hr)
  have hev : (r.id, e.2) = e := by
    rw [← hek]
  have hlook : lookupD states r.id { lastFamily := none, assignments := [] } = e.2 :=
    lookupD_eq_of_mem_nodup _ hnodst (hev ▸ he)
  rw [hlook] at hi heval
  rw [evalGap_eq_core] at heval
  obtain ⟨hc, hcend⟩ := evalGapCore_cand_spec heval
  refine ⟨r, e.2, i, hr, ?_, hev ▸ he, hi, ?_, ?_, ?_, ?_⟩
  · rw [hc]
  · rw [hc]
    exact le_trans (le_max_left _ _)
      (le_add_of_nonneg_right (getChangeoverTime_nonneg hm))
  · rw [hc]
  · intro p hp hne0
    have hif : (if i = 0 then none else e.2.assignments.get? (i - 1)) = some p := by
      rw [if_neg hne0]
      exact hp
    rw [hif] at hc
    dsimp only [Option.map] at hc
    rw [hc]
    dsimp only
    exact add_le_add_right (le_max_right _ _) _
  · intro n hn
    rw [hn] at hcend
    exact le_trans hcend (min_le_right _ _)

/-! ### The main loop invariant (precedence, changeover, key bookkeeping) -/

/-- Everything the continuing loop preserves beyond `InvC3`/`InvC8`: the
(product, step) keys of the log and pool are jointly distinct, the
per-product map mirrors the log exactly, every resource list is gap-sorted,
chronologically adjacent pairs placed in log order respect the changeover
matrix, and assigned steps respect precedence and are downward closed. -/
structure InvMain (norm : Normalized) (st : LoopState) : Prop where
  c3 : InvC3 norm st
  c8 : InvC8 norm st
  keysNodup : (st.allAssignments.map asgKey ++ st.unscheduled.map opKey).Nodup
  mapExact : ∀ e ∈ st.assignmentsMap,
    e.2 = st.allAssignments.filter (fun a => a.productId == e.1)
  mapKeysNodup : (st.assignmentsMap.map Prod.fst).Nodup
  mapKeysMem : ∀ a ∈ st.allAssignments, a.productId ∈ st.assignmentsMap.map Prod.fst
  gapChain : ∀ e ∈ st.resourceStates,
    List.Chain' (fun a b => a.stop ≤ b.start) e.2.assignments
  changeChain : ∀ e ∈ st.resourceStates,
    List.Chain' (fun a b =>
      placedBefore a b st.allAssignments →
      a.productFamily ≠ b.productFamily →
      a.stop + getChangeoverTime (some a.productFamily) b.productFamily
        norm.changeoverMatrix ≤ b.start) e.2.assignments
  stepOrder : ∀ a ∈ st.allAssignments, ∀ b ∈ st.allAssignments,
    a.productId = b.productId → b.stepIndex = a.stepIndex + 1 → a.stop ≤ b.start
  closure : ∀ b ∈ st.allAssignments, b.stepIndex = 0 ∨
    ∃ a ∈ st.allAssignments, a.productId = b.productId ∧ a.stepIndex + 1 = b.stepIndex

theorem InvMain_init (norm : Normalized)
    (hdur : ∀ p ∈ norm.products, ∀ o ∈ p.route, 0 < o.duration_minutes)
    (hids : (norm.products.map NormProduct.id).Nodup) :
    InvMain norm
      { resourceStates := norm.resources.map (fun e => (e.1, { lastFamily := none, assignments := [] }))
      , assignmentsMap := []
      , allAssignments := []
      , unscheduled := buildOperationsList norm.products
      , iteration := 0 } := by
  refine ⟨InvC3_init norm, InvC8_init norm hdur, ?_, ?_, ?_, ?_, ?_, ?_, ?_, ?_⟩
  · rw [List.map_nil, List.nil_append]
    exact buildOperationsList_keys_nodup norm.products hids
  · intro e he
    cases he
  · exact List.nodup_nil
  · intro a ha
    cases ha
  · intro e he
    obtain ⟨p, _, hpe⟩ := List.mem_map.mp he
    rw [← hpe]
    exact List.chain'_nil
  · intro e he
    obtain ⟨p, _, hpe⟩ := List.mem_map.mp he
    rw [← hpe]
    exact List.chain'_nil
  · intro a ha
    cases ha
  · intro b hb
    cases hb

theorem mem_assoc_unique {β : Type} {m : List (String × β)}
    (hnod : (m.map Prod.fst).Nodup) {k : String} {v v2 : β}
    (h1 : (k, v) ∈ m) (h2 : (k, v2) ∈ m) : v = v2 := by
  have := List.inj_on_of_nodup_map hnod h1 h2 rfl
  injection this

theorem InvMain_step {norm : Normalized} {pm : List (String × NormProduct)}
    {maxIter : Nat} {d : Nat → Bool} {st st' : LoopState}
    (hnod : (norm.resources.map Prod.fst).Nodup)
    (hid : ∀ e ∈ norm.resources, e.2.id = e.1)
    (hm : ∀ e ∈ norm.changeoverMatrix, 0 ≤ e.2)
    (hinv : InvMain norm st)
    (h : scheduleStep norm pm maxIter d st = .inr st') : InvMain norm st' := by
  have hc3' := InvC3_step hnod hid hinv.c3 h
  have hc8' := InvC8_step hm hinv.c8 h
  obtain ⟨nextOp0, nextOp, pool1, placement, nearMiss, hsel, hrefresh, hplace, hhor, hst'⟩ :=
    scheduleStep_inr_spec h
  obtain ⟨hmem0, hready0⟩ := selectNextOperation_mem_ready hsel
  have hpid : nextOp.productId = nextOp0.productId := by
    rcases hrefresh with ⟨_, heq, _⟩ | ⟨prior, _, _, heq, _⟩ <;> rw [heq]
  have hstep2 : nextOp.stepIndex = nextOp0.stepIndex := by
    rcases hrefresh with ⟨_, heq, _⟩ | ⟨prior, _, _, heq, _⟩ <;> rw [heq]
  have hfam : nextOp.productFamily = nextOp0.productFamily := by
    rcases hrefresh with ⟨_, heq, _⟩ | ⟨prior, _, _, heq, _⟩ <;> rw [heq]
  have hdur2 : nextOp.duration = nextOp0.duration := by
    rcases hrefresh with ⟨_, heq, _⟩ | ⟨prior, _, _, heq, _⟩ <;> rw [heq]
  have hnodlog : (st.allAssignments.map asgKey).Nodup :=
    (List.nodup_append.mp hinv.keysNodup).1
  have hnodpool : (st.unscheduled.map opKey).Nodup :=
    (List.nodup_append.mp hinv.keysNodup).2.1
  have hdisj : (st.allAssignments.map asgKey).Disjoint (st.unscheduled.map opKey) :=
    (List.nodup_append.mp hinv.keysNodup).2.2
  have hxkey : asgKey (mkAssignment nextOp placement) = opKey nextOp0 := by
    show (nextOp.productId, nextOp.stepIndex) = (nextOp0.productId, nextOp0.stepIndex)
    rw [hpid, hstep2]
  have hxpoolkey : asgKey (mkAssignment nextOp placement) ∈ st.unscheduled.map opKey := by
    rw [hxkey]
    exact List.mem_map_of_mem opKey hmem0
  have hxnotlogkey : asgKey (mkAssignment nextOp placement) ∉ st.allAssignments.map asgKey :=
    fun hc => hdisj hc hxpoolkey
  have hxnotlog : mkAssignment nextOp placement ∉ st.allAssignments :=
    fun hc => hxnotlogkey (List.mem_map_of_mem asgKey hc)
  have hkeyuniq : ∀ a ∈ st.allAssignments, ∀ b ∈ st.allAssignments,
      asgKey a = asgKey b → a = b :=
    fun a ha b hb heq => List.inj_on_of_nodup_map hnodlog ha hb heq
  have hmapsub : ∀ (pid : String) (a : InternalAssignment),
      a ∈ lookupD st.assignmentsMap pid [] →
      a ∈ st.allAssignments ∧ a.productId = pid := by
    intro pid a ha
    rcases lookupD_cases st.assignmentsMap pid [] with hl | ⟨e, he, hek, hl⟩
    · rw [hl] at ha
      cases ha
    · rw [hl, hinv.mapExact e he] at ha
      have h2 := List.mem_filter.mp ha
      refine ⟨h2.1, ?_⟩
      rw [← hek]
      simpa using h2.2
  have hlogmap : ∀ a ∈ st.allAssignments, a ∈ lookupD st.assignmentsMap a.productId [] := by
    intro a ha
    obtain ⟨e, he, hek⟩ := (mem_keys_iff _ _).mp (hinv.mapKeysMem a ha)
    have hpe : (a.productId, e.2) ∈ st.assignmentsMap := by
      rw [← hek]
      exact he
    have hl : lookupD st.assignmentsMap a.productId [] = e.2 :=
      lookupD_eq_of_mem_nodup _ hinv.mapKeysNodup hpe
    rw [hl, hinv.mapExact e he]
    exact List.mem_filter.mpr ⟨ha, by simp [hek]⟩
  have hstkeys : (st.resourceStates.map Prod.fst).Nodup := by
    rw [hinv.c3.1]
    exact hnod
  have hrideleg : ∀ r' ∈ getEligibleResources nextOp norm.resources,
      r'.id ∈ st.resourceStates.map Prod.fst := by
    intro r' hr'
    rw [hinv.c3.1]
    exact getEligibleResources_mem_keys hid r' hr'
  obtain ⟨r, v, i, hrelig, hprid, hrv, hilen, hestart, hstopeq, hprevco, hnextb⟩ :=
    tryPlaceOperation_insert_spec hstkeys hm hrideleg hplace
  have hposlog : ∀ a ∈ st.allAssignments, a.start < a.stop :=
    fun a ha => (hinv.c8.1 a ha).2.1
  have hdurpos : 0 < nextOp.duration := by
    rw [hdur2]
    exact (hinv.c8.2.1 nextOp0 hmem0).2
  have hxpos : (mkAssignment nextOp placement).start < (mkAssignment nextOp placement).stop := by
    show placement.start < placement.stop
    rw [hstopeq]
    omega
  have hvperm : List.Perm v.assignments
      (st.allAssignments.filter (fun a => a.resource == r.id)) :=
    hinv.c3.2.1 (r.id, v) hrv
  have hvsub : ∀ a ∈ v.assignments, a ∈ st.allAssignments := by
    intro a ha
    exact (List.mem_filter.mp (hvperm.subset ha)).1
  have hvpos : ∀ a ∈ v.assignments, a.start < a.stop :=
    fun a ha => hposlog a (hvsub a ha)
  have hvchain := hinv.gapChain (r.id, v) hrv
  have hprev' : ∀ p, v.assignments.get? (i - 1) = some p → i ≠ 0 →
      p.stop ≤ (mkAssignment nextOp placement).start := by
    intro p hp h0
    have h1 := hprevco p hp h0
    have hco : 0 ≤ getChangeoverTime (some p.productFamily) nextOp.productFamily
        norm.changeoverMatrix := getChangeoverTime_nonneg hm
    show p.stop ≤ placement.start
    omega
  have hnext' : ∀ n, v.assignments.get? i = some n →
      (mkAssignment nextOp placement).stop ≤ n.start := by
    intro n hn
    exact hnextb n hn
  have hinserted := sortByKey_insert_at v.assignments (mkAssignment nextOp placement)
    i hilen hvpos hxpos hvchain hprev' hnext'
  have hgapins := insert_gap_chain v.assignments (mkAssignment nextOp placement)
    i hilen hvchain hprev' hnext'
  -- splice decomposition of the new pool
  have hp1keys : pool1.map opKey = st.unscheduled.map opKey := by
    rcases hrefresh with ⟨_, _, hp1⟩ | ⟨prior, _, _, _, hp1⟩
    · rw [hp1]
    · rw [hp1]
      exact updateFirstBy_map_key _
        (fun o => { o with earliestStart := prior.stop }) opKey (fun o => rfl) _
  have hp2keys : (updateFirstBy
      (fun o => o.productId == nextOp.productId &&
        o.stepIndex == nextOp.stepIndex + 1)
      (fun o => { o with earliestStart := max o.earliestStart (mkAssignment nextOp placement).stop })
      pool1).map opKey =
      st.unscheduled.map opKey := by
    rw [updateFirstBy_map_key _
      (fun o => { o with earliestStart := max o.earliestStart (mkAssignment nextOp placement).stop })
      opKey (fun o => rfl), hp1keys]
  have hkmem2 : opKey nextOp0 ∈ (updateFirstBy
      (fun o => o.productId == nextOp.productId &&
        o.stepIndex == nextOp.stepIndex + 1)
      (fun o => { o with earliestStart := max o.earliestStart (mkAssignment nextOp placement).stop })
      pool1).map opKey := by
    rw [hp2keys]
    exact List.mem_map_of_mem opKey hmem0
  obtain ⟨mop, hmop, hmopkey⟩ := List.mem_map.mp hkmem2
  have hpmop : (mop.productId == nextOp.productId &&
      mop.stepIndex == nextOp.stepIndex) = true := by
    have h1 : mop.productId = nextOp0.productId := congrArg Prod.fst hmopkey
    have h2 : mop.stepIndex = nextOp0.stepIndex := congrArg Prod.snd hmopkey
    rw [h1, h2, hpid, hstep2]
    simp
  obtain ⟨l1, m', l2, hp2eq, hpm', hl1f, hsplice⟩ :=
    spliceOutFirst_decomp
      (fun o => o.productId == nextOp.productId && o.stepIndex == nextOp.stepIndex)
      _ mop hmop hpmop
  have hm'key : opKey m' = asgKey (mkAssignment nextOp placement) := by
    have h1 : (m'.productId == nextOp.productId) = true := by
      have := hpm'
      rw [Bool.and_eq_true] at this
      exact this.1
    have h2 : (m'.stepIndex == nextOp.stepIndex) = true := by
      have := hpm'
      rw [Bool.and_eq_true] at this
      exact this.2
    show (m'.productId, m'.stepIndex) = (nextOp.productId, nextOp.stepIndex)
    rw [show m'.productId = nextOp.productId from by simpa using h1,
      show m'.stepIndex = nextOp.stepIndex from by simpa using h2]
  subst hst'
  refine ⟨hc3', hc8', ?_, ?_, ?_, ?_, ?_, ?_, ?_, ?_⟩
  · -- keysNodup
    dsimp only
    rw [hsplice]
    refine (List.Perm.nodup_iff ?_).mpr hinv.keysNodup
    rw [List.map_append]
    have hp2 : (l1 ++ l2).map opKey = l1.map opKey ++ l2.map opKey := List.map_append _ _ _
    rw [hp2]
    have holdpool : st.unscheduled.map opKey =
        l1.map opKey ++ opKey m' :: l2.map opKey := by
      rw [← hp2keys, hp2eq, List.map_append, List.map_cons]
    rw [holdpool, hm'key]
    dsimp only [List.map]
    rw [List.append_assoc]
    refine List.Perm.append_left _ ?_
    rw [List.singleton_append]
    exact List.perm_middle.symm
  · -- mapExact
    dsimp only
    intro e he
    rw [assocSet_eq] at he
    by_cases hany : st.assignmentsMap.any (fun e2 => e2.1 == nextOp.productId) = true
    · rw [if_pos hany] at he
      rcases assocUpdate_entries st.assignmentsMap nextOp.productId _
          hinv.mapKeysNodup e he with ⟨hne, hmem⟩ | ⟨hek, v2, hv2, hev⟩
      · rw [hinv.mapExact e hmem, filter_append_singleton]
        rw [if_neg (by
          simp only [beq_iff_eq]
          show ¬ nextOp.productId = e.1
          exact fun hc => hne hc.symm)]
        rw [List.append_nil]
      · rw [hev]
        dsimp only
        have hlk : lookupD st.assignmentsMap nextOp.productId [] = v2 :=
          lookupD_eq_of_mem_nodup _ hinv.mapKeysNodup hv2
        have hv2eq := hinv.mapExact (nextOp.productId, v2) hv2
        dsimp only at hv2eq
        rw [hlk, hv2eq, filter_append_singleton, if_pos (by simp [mkAssignment])]
    · rw [if_neg hany] at he
      have hnotin : nextOp.productId ∉ st.assignmentsMap.map Prod.fst := by
        intro hc
        obtain ⟨e2, he2, he2k⟩ := (mem_keys_iff _ _).mp hc
        apply hany
        rw [List.any_eq_true]
        exact ⟨e2, he2, by simpa using he2k⟩
      rcases List.mem_append.mp he with h1 | h1
      · have hne : e.1 ≠ nextOp.productId := by
          intro hc
          exact hnotin (hc ▸ List.mem_map_of_mem Prod.fst h1)
        rw [hinv.mapExact e h1, filter_append_singleton]
        rw [if_neg (by
          simp only [beq_iff_eq]
          exact fun hc => hne hc.symm)]
        rw [List.append_nil]
      · rw [List.mem_singleton.mp h1]
        dsimp only
        have hfl : st.allAssignments.filter
            (fun a => a.productId == nextOp.productId) = [] := by
          rw [List.filter_eq_nil_iff]
          intro a ha hc
          exact hnotin ((by simpa using hc : a.productId = nextOp.productId) ▸
            hinv.mapKeysMem a ha)
        rw [lookupD_eq_default_of_not_mem _ hnotin]
        rw [filter_append_singleton, if_pos (by simp [mkAssignment]), hfl]
  · -- mapKeysNodup
    dsimp only
    exact assocSet_nodup _ _ _ hinv.mapKeysNodup
  · -- mapKeysMem
    dsimp only
    intro a ha
    rcases List.mem_append.mp ha with ha | ha
    · exact assocSet_keys_incl _ _ _ _ (Or.inl (hinv.mapKeysMem a ha))
    · rw [List.mem_singleton.mp ha]
      exact assocSet_keys_incl _ _ _ _ (Or.inr rfl)
  · -- gapChain
    dsimp only
    intro e he
    rcases assocUpdate_entries st.resourceStates placement.resource _ hstkeys e he with
      ⟨hne, hmem⟩ | ⟨hek, v2, hv2, hev⟩
    · exact hinv.gapChain e hmem
    · rw [hev]
      dsimp only
      have hv2v : v2 = v := by
        refine mem_assoc_unique hstkeys hv2 ?_
      -- (placement.resource, v) ∈ rs from hrv with hprid
        rw [hprid]
        exact hrv
      rw [hv2v]
      unfold updateResourceState
      dsimp only
      rw [hinserted]
      exact hgapins
  · -- changeChain
    dsimp only
    intro e he
    rcases assocUpdate_entries st.resourceStates placement.resource _ hstkeys e he with
      ⟨hne, hmem⟩ | ⟨hek, v2, hv2, hev⟩
    · -- unchanged resource: transfer the old chain to the longer log
      refine chain'_imp_mem _ ?_ (hinv.changeChain e hmem)
      intro a ha b hb hold hpb hfam2
      have hblog : b ∈ st.allAssignments := by
        have := (hinv.c3.2.1 e hmem).subset hb
        exact (List.mem_filter.mp this).1
      have hbne : b ≠ mkAssignment nextOp placement := by
        intro hc
        rw [hc] at hblog
        exact hxnotlog hblog
      exact hold (placedBefore_shrink hbne hpb) hfam2
    · rw [hev]
      dsimp only
      have hv2v : v2 = v := by
        refine mem_assoc_unique hstkeys hv2 ?_
        rw [hprid]
        exact hrv
      rw [hv2v]
      unfold updateResourceState
      dsimp only
      rw [hinserted]
      rw [List.chain'_append]
      refine ⟨?_, ?_, ?_⟩
      · -- take part
        refine chain'_imp_mem _ ?_ ((hinv.changeChain (r.id, v) hrv).take i)
        intro a ha b hb hold hpb hfam2
        have hblog : b ∈ st.allAssignments := hvsub b (List.mem_of_mem_take hb)
        have hbne : b ≠ mkAssignment nextOp placement := by
          intro hc
          rw [hc] at hblog
          exact hxnotlog hblog
        exact hold (placedBefore_shrink hbne hpb) hfam2
      · -- x then the drop part
        rw [List.chain'_cons']
        constructor
        · intro y hy hpb _
          exfalso
          have hyd : y ∈ v.assignments.drop i := List.mem_of_mem_head? hy
          have hylog : y ∈ st.allAssignments := hvsub y (List.mem_of_mem_drop hyd)
          exact not_placedBefore_new hxnotlog hylog hpb
        · refine chain'_imp_mem _ ?_ ((hinv.changeChain (r.id, v) hrv).drop i)
          intro a ha b hb hold hpb hfam2
          have hblog : b ∈ st.allAssignments := hvsub b (List.mem_of_mem_drop hb)
          have hbne : b ≠ mkAssignment nextOp placement := by
            intro hc
            rw [hc] at hblog
            exact hxnotlog hblog
          exact hold (placedBefore_shrink hbne hpb) hfam2
      · -- the pair (last of take, x)
        intro p hp y hy
        rw [List.head?_cons, Option.mem_def, Option.some.injEq] at hy
        subst hy
        intro _ _
        rcases Nat.eq_zero_or_pos i with hi0 | hi0
        · rw [hi0] at hp
          cases hp
        · have hpget : v.assignments.get? (i - 1) = some p := by
            rw [Option.mem_def, List.getLast?_eq_getElem?] at hp
            rw [List.length_take] at hp
            have hlen : min i v.assignments.length = i := by omega
            rw [hlen] at hp
            rw [List.getElem?_take_of_lt (by omega)] at hp
            rw [List.get?_eq_getElem?]
            exact hp
          have h1 := hprevco p hpget (by omega)
          show p.stop + getChangeoverTime (some p.productFamily)
            (mkAssignment nextOp placement).productFamily norm.changeoverMatrix ≤
            (mkAssignment nextOp placement).start
          exact h1
  · -- stepOrder
    dsimp only
    intro a ha b hb hab hstep3
    rcases List.mem_append.mp ha with ha | ha <;>
      rcases List.mem_append.mp hb with hb | hb
    · exact hinv.stepOrder a ha b hb hab hstep3
    · -- b = x: use the earliest-start refresh
      rw [List.mem_singleton.mp hb] at hab hstep3 ⊢
      have hab2 : a.productId = nextOp.productId := hab
      have hbstep : nextOp.stepIndex = a.stepIndex + 1 := hstep3
      rcases hrefresh with ⟨hcond, hnexteq, _⟩ | ⟨prior, hgt, hfind, hnexteq, _⟩
      · rcases hcond with h0 | hnone
        · rw [hnexteq] at hbstep
          rw [h0] at hbstep
          omega
        · exfalso
          have hamem : a ∈ lookupD st.assignmentsMap nextOp0.productId [] := by
            have h2 := hlogmap a ha
            have h3 : a.productId = nextOp0.productId := by
              rw [hab2]
              exact hpid
            rw [h3] at h2
            exact h2
          rw [List.find?_eq_none] at hnone
          have h4 := hnone a hamem
          rw [hnexteq] at hbstep
          apply h4
          simp [hbstep]
      · have hpmem := List.mem_of_find?_eq_some hfind
        have hpred := List.find?_some hfind
        have hpriormem : prior ∈ st.allAssignments ∧ prior.productId = nextOp0.productId :=
          hmapsub _ _ hpmem
        have hpstep : prior.stepIndex + 1 = nextOp0.stepIndex := by simpa using hpred
        have hstep0 : nextOp.stepIndex = nextOp0.stepIndex := hstep2
        have h6 : a.stepIndex = prior.stepIndex := by omega
        have h5 : a.productId = prior.productId := by
          rw [hab2, hpid, hpriormem.2]
        have haprior : a = prior := by
          refine hkeyuniq a ha prior hpriormem.1 ?_
          show (a.productId, a.stepIndex) = (prior.productId, prior.stepIndex)
          rw [h5, h6]
        show a.stop ≤ (mkAssignment nextOp placement).start
        have hes : nextOp.earliestStart = prior.stop := by
          rw [hnexteq]
        rw [haprior]
        have h7 := hestart
        rw [hes] at h7
        exact h7
    · -- a = x, b old: impossible by key disjointness and closure
      exfalso
      rw [List.mem_singleton.mp ha] at hab hstep3
      have hab2 : nextOp.productId = b.productId := hab
      have hstep4 : b.stepIndex = nextOp.stepIndex + 1 := hstep3
      rcases hinv.closure b hb with h0 | ⟨a2, ha2, ha2b, ha2step⟩
      · rw [h0] at hstep4
        omega
      · -- a2 has key (nextOp.productId, nextOp.stepIndex) in the log
        apply hxnotlogkey
        have hk2 : asgKey a2 = asgKey (mkAssignment nextOp placement) := by
          show (a2.productId, a2.stepIndex) = (nextOp.productId, nextOp.stepIndex)
          have e1 : a2.productId = nextOp.productId := by rw [ha2b, ← hab2]
          have e2 : a2.stepIndex = nextOp.stepIndex := by omega
          rw [e1, e2]
        rw [← hk2]
        exact List.mem_map_of_mem asgKey ha2
    · -- a = x, b = x
      rw [List.mem_singleton.mp ha, List.mem_singleton.mp hb] at hstep3
      have hs : nextOp.stepIndex = nextOp.stepIndex + 1 := hstep3
      omega
  · -- closure
    dsimp only
    intro b hb
    rcases List.mem_append.mp hb with hb | hb
    · rcases hinv.closure b hb with h0 | ⟨a, ha, hab, hstep3⟩
      · exact Or.inl h0
      · exact Or.inr ⟨a, List.mem_append_left _ ha, hab, hstep3⟩
    · rw [List.mem_singleton.mp hb]
      unfold isReady at hready0
      rw [Bool.or_eq_true] at hready0
      rcases hready0 with h0 | hany
      · left
        show nextOp.stepIndex = 0
        rw [hstep2]
        simpa using h0
      · right
        rw [List.any_eq_true] at hany
        obtain ⟨a, hamem, hastep⟩ := hany
        obtain ⟨halog, hapid⟩ := hmapsub _ _ hamem
        refine ⟨a, List.mem_append_left _ halog, ?_, ?_⟩
        · show a.productId = nextOp.productId
          rw [hapid, hpid]
        · show a.stepIndex + 1 = nextOp.stepIndex
          rw [hstep2]
          simpa using hastep

/-- The changeover chain holds of every chronologically re-sorted resource
list in any state satisfying the main invariant. -/
theorem InvMain_change_sorted {norm : Normalized} {st : LoopState}
    (hinv : InvMain norm st) :
    ∀ e ∈ st.resourceStates,
      List.Chain' (fun a b =>
        placedBefore a b st.allAssignments →
        a.productFamily ≠ b.productFamily →
        a.stop + getChangeoverTime (some a.productFamily) b.productFamily
          norm.changeoverMatrix ≤ b.start)
        (sortByKey InternalAssignment.start e.2.assignments) := by
  intro e he
  have hsub : ∀ a ∈ e.2.assignments, a ∈ st.allAssignments := by
    intro a ha
    exact (List.mem_filter.mp ((hinv.c3.2.1 e he).subset ha)).1
  have hpos : ∀ a ∈ e.2.assignments, a.start < a.stop :=
    fun a ha => (hinv.c8.1 a (hsub a ha)).2.1
  rw [sortByKey_eq_self _ _ (gap_chain_le _ hpos (hinv.gapChain e he))]
  exact hinv.changeChain e he

/-- C4: in every successful schedule (for inputs within the documented data
model: positive route durations, nonnegative changeover minutes, distinct
product ids), for every product and every pair of consecutive route steps
that both have assignments, the later step starts no earlier than the
earlier step ends, regardless of resources. -/
theorem C4_precedence (inp : EngineInput) (d : Nat → Bool)
    (hm : ∀ e ∈ inp.changeoverMatrix, 0 ≤ e.2)
    (hdur : ∀ p ∈ inp.products, ∀ o ∈ p.route, 0 < o.duration_minutes)
    (hids : (inp.products.map NormProduct.id).Nodup)
    (v : String) (asg : List OutAssignment) (k : KPIs)
    (hres : schedule inp d = .success v asg k) :
    ∀ a ∈ (scheduleInternal inp d).2.allAssignments,
      ∀ b ∈ (scheduleInternal inp d).2.allAssignments,
        a.productId = b.productId → b.stepIndex = a.stepIndex + 1 →
        a.stop ≤ b.start := by
  unfold scheduleInternal
  dsimp only
  by_cases hempty : (normalizeInput inp).products.length = 0
  · rw [if_pos hempty]
    dsimp only
    intro a ha
    cases ha
  · rw [if_neg hempty]
    exact scheduleLoop_rule (normalizeInput inp) _ _ d (InvMain (normalizeInput inp))
      (fun _ stf => ∀ a ∈ stf.allAssignments, ∀ b ∈ stf.allAssignments,
        a.productId = b.productId → b.stepIndex = a.stepIndex + 1 → a.stop ≤ b.start)
      (fun st st' hinv _ hstp => InvMain_step (normalizeInput_resources_nodup inp)
        (normalizeInput_resources_id inp) hm hinv hstp)
      (fun st res hinv _ _ => hinv.stepOrder)
      (fun st hinv _ => hinv.stepOrder)
      _ (InvMain_init (normalizeInput inp) hdur hids)

/-- Witness for C4 at `changeoverGapInput`: product `P1`'s step 0 ends at
minute 100 and its step 1 starts at minute 100. -/
theorem C4_precedence_witness :
    ({ productId := "P1", productFamily := "A", stepIndex := 0
     , operationName := "c2", resource := "R2", start := 0, stop := 100 }
     : InternalAssignment).stop ≤
    ({ productId := "P1", productFamily := "A", stepIndex := 1
     , operationName := "c1", resource := "R1", start := 100, stop := 150 }
     : InternalAssignment).start :=
  C4_precedence changeoverGapInput neverDeadline (by decide) (by decide) (by decide)
    SCHEDULER_VERSION
    [ { product := "P1", operation := "c2", resource := "R2", start := 0, stop := 100 }
    , { product := "P2", operation := "c1", resource := "R1", start := 0, stop := 30 }
    , { product := "P1", operation := "c1", resource := "R1", start := 100, stop := 150 } ]
    { tardiness_minutes := 0, changeovers := 1, makespan_minutes := 150
    , utilization := [("R1", 53), ("R2", 33)], on_time_jobs := 2, total_jobs := 2 }
    (by decide)
    { productId := "P1", productFamily := "A", stepIndex := 0
    , operationName := "c2", resource := "R2", start := 0, stop := 100 }
    (by decide)
    { productId := "P1", productFamily := "A", stepIndex := 1
    , operationName := "c1", resource := "R1", start := 100, stop := 150 }
    (by decide) rfl rfl

/-- C2, amended: in every successful schedule (for inputs within the
documented data model), for any two chronologically adjacent assignments
`prev`, `next` on the same resource such that `prev` was placed by the loop
before `next`, if their families differ then
`next.start - prev.end >= changeover(prev.family, next.family)`.  The
placement-order condition is the amendment: a later placement inserted into
a gap before an existing assignment is never checked against its successor,
and the bound can fail for such pairs (`C2_changeover_counterexample`). -/
theorem C2_changeover_order (inp : EngineInput) (d : Nat → Bool)
    (hm : ∀ e ∈ inp.changeoverMatrix, 0 ≤ e.2)
    (hdur : ∀ p ∈ inp.products, ∀ o ∈ p.route, 0 < o.duration_minutes)
    (hids : (inp.products.map NormProduct.id).Nodup)
    (v : String) (asg : List OutAssignment) (k : KPIs)
    (hres : schedule inp d = .success v asg k) :
    ∀ e ∈ (scheduleInternal inp d).2.resourceStates,
      List.Chain' (fun a b =>
        placedBefore a b (scheduleInternal inp d).2.allAssignments →
        a.productFamily ≠ b.productFamily →
        a.stop + getChangeoverTime (some a.productFamily) b.productFamily
          inp.changeoverMatrix ≤ b.start)
        (sortByKey InternalAssignment.start e.2.assignments) := by
  unfold scheduleInternal
  dsimp only
  by_cases hempty : (normalizeInput inp).products.length = 0
  · rw [if_pos hempty]
    dsimp only
    intro e he
    obtain ⟨p, _, hpe⟩ := List.mem_map.mp he
    rw [← hpe]
    exact List.chain'_nil
  · rw [if_neg hempty]
    exact scheduleLoop_rule (normalizeInput inp) _ _ d (InvMain (normalizeInput inp))
      (fun _ stf => ∀ e ∈ stf.resourceStates,
        List.Chain' (fun a b =>
          placedBefore a b stf.allAssignments →
          a.productFamily ≠ b.productFamily →
          a.stop + getChangeoverTime (some a.productFamily) b.productFamily
            inp.changeoverMatrix ≤ b.start)
          (sortByKey InternalAssignment.start e.2.assignments))
      (fun st st' hinv _ hstp => InvMain_step (normalizeInput_resources_nodup inp)
        (normalizeInput_resources_id inp) hm hinv hstp)
      (fun st res hinv _ _ => InvMain_change_sorted hinv)
      (fun st hinv _ => InvMain_change_sorted hinv)
      _ (InvMain_init (normalizeInput inp) hdur hids)

/-- Witness for C2 (amended) at `changeoverGapInput`, on resource `R1`. -/
theorem C2_changeover_order_witness :
    List.Chain' (fun a b =>
      placedBefore a b (scheduleInternal changeoverGapInput neverDeadline).2.allAssignments →
      a.productFamily ≠ b.productFamily →
      a.stop + getChangeoverTime (some a.productFamily) b.productFamily
        changeoverGapInput.changeoverMatrix ≤ b.start)
      (sortByKey InternalAssignment.start
        (("R1", lookupD (scheduleInternal changeoverGapInput neverDeadline).2.resourceStates
          "R1" { lastFamily := none, assignments := [] })
          : String × ResourceState).2.assignments) :=
  C2_changeover_order changeoverGapInput neverDeadline (by decide) (by decide) (by decide)
    SCHEDULER_VERSION
    [ { product := "P1", operation := "c2", resource := "R2", start := 0, stop := 100 }
    , { product := "P2", operation := "c1", resource := "R1", start := 0, stop := 30 }
    , { product := "P1", operation := "c1", resource := "R1", start := 100, stop := 150 } ]
    { tardiness_minutes := 0, changeovers := 1, makespan_minutes := 150
    , utilization := [("R1", 53), ("R2", 33)], on_time_jobs := 2, total_jobs := 2 }
    (by decide)
    ("R1", lookupD (scheduleInternal changeoverGapInput neverDeadline).2.resourceStates
      "R1" { lastFamily := none, assignments := [] })
    (by decide)
